import Mathlib

/-!
Shallow embedding of the HeliosLang/effect CBOR codec core.

The definitions below are translated from the repository source:
* the byte stream (`Bytes.Stream` with `peekOne` / `shiftOne` / `shiftMany` /
  `isAtEnd` / `copy`) from `src/internal/Bytes.ts`;
* the big-endian unsigned integer codec from `src/internal/BigEndian.ts`;
* the CBOR codec (`decodeDefHead`, `encodeDefHead`, `decodeInt`, `encodeInt`,
  `decodeBytes`, `encodeBytes`, `decodeList`, `encodeList`, `decodeConstr`,
  `encodeConstr`, `decodeListLazy`, `decodeTuple`, the `is*` probes, ...)
  from `src/Cbor.ts`.

Decoders are modelled as state-passing functions `Stream → Except DErr (α × Stream)`
mirroring the Effect-based generators of the source; JavaScript `bigint`
arithmetic is modelled with `Nat`/`Int`; functions that `throw` on the encode
side are modelled as `Option`-valued.  The `while` loops over indefinite-length
items are modelled with an explicit fuel argument initialised from the stream
length (the source loops are bounded in exactly the same way whenever each
iteration consumes at least one byte, which is the case for every CBOR item).
-/

namespace CborSpec

/-- Error type: `EndOfStreamError` from `Bytes.ts` and `Cbor.DecodeError` from
`Cbor.ts`, merged into one sum as decoders can fail with either. -/
inductive DErr where
  | endOfStream
  | decodeError (message : String)
deriving Repr, DecidableEq

/-- A byte stream: an immutable byte buffer plus a read position
(`Bytes.Stream` / `StreamImpl` in `src/internal/Bytes.ts`). -/
structure Stream where
  bytes : List Nat
  pos : Nat
deriving Repr, DecidableEq

/-- Monad of decoders: a decoder consumes a stream and returns a value plus the
advanced stream, or fails (`Decoder<T>` in `Cbor.ts`). -/
abbrev DecodeM (α : Type) := Stream → Except DErr (α × Stream)

/-- An indexed decoder additionally receives the 0-based item index
(`IndexedDecoder<T>` in `Cbor.ts`). -/
abbrev IndexedDecoder (α : Type) := Stream → Nat → Except DErr (α × Stream)

namespace Stream

/-- `StreamImpl.isAtEnd`: `pos >= bytes.length`. -/
def isAtEnd (s : Stream) : Bool := s.bytes.length ≤ s.pos

/-- `StreamImpl.copy`: an independent cursor over the same buffer at the same
position (value semantics in the pure model). -/
def copy (s : Stream) : Stream := ⟨s.bytes, s.pos⟩

/-- `StreamImpl.peekOne`: the byte at the current position, without advancing. -/
def peekOne (s : Stream) : Except DErr (Nat × Stream) :=
  match s.bytes[s.pos]? with
  | some b => .ok (b, s)
  | none => .error .endOfStream

/-- `StreamImpl.shiftOne`: the byte at the current position, advancing by one. -/
def shiftOne (s : Stream) : Except DErr (Nat × Stream) :=
  match s.bytes[s.pos]? with
  | some b => .ok (b, { s with pos := s.pos + 1 })
  | none => .error .endOfStream

/-- `StreamImpl.shiftMany`: the next `n` bytes, advancing by `n`; fails with
`EndOfStreamError` if fewer than `n` bytes remain. -/
def shiftMany (n : Nat) (s : Stream) : Except DErr (List Nat × Stream) :=
  if s.pos + n ≤ s.bytes.length then
    .ok ((s.bytes.drop s.pos).take n, { s with pos := s.pos + n })
  else
    .error .endOfStream

end Stream

namespace BigEndian

/-- Loop of `BigEndian.decode`: big-endian positional sum with a per-byte
range check (bytes are `Nat`, so only the upper bound can fail). -/
def decodeLoop : List Nat → Except String Nat
  | [] => .ok 0
  | b :: rest =>
    if 255 < b then .error "Invalide bytes"
    else
      match decodeLoop rest with
      | .ok v => .ok (b * 256 ^ rest.length + v)
      | .error e => .error e

/-- `BigEndian.decode`: converts big-endian bytes to an unbounded non-negative
integer; fails on empty input or an out-of-range byte. -/
def decode (bytes : List Nat) : Except String Nat :=
  if bytes.isEmpty then .error "Empty bytes" else decodeLoop bytes

/-- Unfolded digit loop of `BigEndian.encode` (the `while x > 0` loop that
unshifts `x % 256`). -/
def natToBytesBE : Nat → List Nat
  | 0 => []
  | x + 1 => natToBytesBE ((x + 1) / 256) ++ [(x + 1) % 256]
decreasing_by exact Nat.div_lt_self (Nat.succ_pos x) (by omega)

/-- `BigEndian.encode`: minimal big-endian byte sequence of a non-negative
integer, with `[0]` for zero. -/
def encode (x : Nat) : List Nat :=
  if x = 0 then [0] else natToBytesBE x

theorem decodeLoop_append {l₁ l₂ : List Nat} {a b : Nat}
    (h₁ : decodeLoop l₁ = .ok a) (h₂ : decodeLoop l₂ = .ok b) :
    decodeLoop (l₁ ++ l₂) = .ok (a * 256 ^ l₂.length + b) := by
  induction l₁ generalizing a with
  | nil =>
    simp [decodeLoop] at h₁
    subst h₁
    simp only [List.nil_append, Nat.zero_mul, Nat.zero_add]
    exact h₂
  | cons x xs ih =>
    simp only [decodeLoop] at h₁
    by_cases hx : 255 < x
    · simp [hx] at h₁
    · simp only [hx, if_false] at h₁
      cases hxs : decodeLoop xs with
      | error e => rw [hxs] at h₁; exact absurd h₁ (by simp)
      | ok v =>
        rw [hxs] at h₁
        simp only [Except.ok.injEq] at h₁
        have hrec := ih hxs
        simp only [List.cons_append, decodeLoop, hx, if_false, List.append_eq, hrec]
        congr 1
        subst h₁
        rw [List.length_append, pow_add]
        ring

theorem natToBytesBE_pos_decode (x : Nat) (hx : 0 < x) :
    decodeLoop (natToBytesBE x) = .ok x := by
  induction x using Nat.strong_induction_on with
  | _ x ih =>
    match x, hx with
    | x + 1, _ =>
      rw [natToBytesBE]
      have hsingle : decodeLoop [(x + 1) % 256] = .ok ((x + 1) % 256) := by
        have : ¬ 255 < (x + 1) % 256 := by
          have := Nat.mod_lt (x + 1) (show 0 < 256 by omega)
          omega
        simp [decodeLoop, this]
      by_cases hq : (x + 1) / 256 = 0
      · rw [hq]
        simp only [natToBytesBE, List.nil_append]
        rw [hsingle]
        congr 1
        omega
      · have hlt : (x + 1) / 256 < x + 1 := Nat.div_lt_self (Nat.succ_pos x) (by omega)
        have hrec := ih ((x + 1) / 256) hlt (Nat.pos_of_ne_zero hq)
        rw [decodeLoop_append hrec hsingle]
        congr 1
        simp only [List.length_singleton, pow_one]
        omega

theorem natToBytesBE_ne_nil (x : Nat) (hx : 0 < x) : natToBytesBE x ≠ [] := by
  match x, hx with
  | x + 1, _ => rw [natToBytesBE]; simp

/-- Roundtrip of the big-endian helper: `decode (encode x) = x`. -/
theorem decode_encode (x : Nat) : decode (encode x) = .ok x := by
  by_cases hx : x = 0
  · subst hx
    simp [decode, encode, decodeLoop]
  · have hpos : 0 < x := Nat.pos_of_ne_zero hx
    rw [encode, if_neg hx, decode,
      if_neg (by simpa using natToBytesBE_ne_nil x hpos)]
    exact natToBytesBE_pos_decode x hpos

theorem decodeLoop_replicate_zero (j : Nat) {l : List Nat} {v : Nat}
    (h : decodeLoop l = .ok v) :
    decodeLoop (List.replicate j 0 ++ l) = .ok v := by
  induction j with
  | zero => simpa using h
  | succ k ih =>
    rw [List.replicate_succ, List.cons_append]
    simp [decodeLoop, ih]

theorem natToBytesBE_length_le (k : Nat) :
    ∀ x, x < 256 ^ k → (natToBytesBE x).length ≤ k := by
  induction k with
  | zero =>
    intro x hx
    interval_cases x
    simp [natToBytesBE]
  | succ k ih =>
    intro x hx
    match x with
    | 0 => simp [natToBytesBE]
    | x + 1 =>
      rw [natToBytesBE]
      have hq : (x + 1) / 256 < 256 ^ k := by
        rw [Nat.div_lt_iff_lt_mul (by omega)]
        calc x + 1 < 256 ^ (k + 1) := hx
        _ = 256 ^ k * 256 := by ring
      have := ih ((x + 1) / 256) hq
      simp only [List.length_append, List.length_singleton]
      omega

end BigEndian

theorem Stream.peekOne_at (pre post : List Nat) (b : Nat) :
    Stream.peekOne ⟨pre ++ b :: post, pre.length⟩ =
      .ok (b, ⟨pre ++ b :: post, pre.length⟩) := by
  have h : (pre ++ b :: post)[pre.length]? = some b := by
    rw [List.getElem?_append_right (le_refl _)]
    simp
  simp [Stream.peekOne, h]

theorem Stream.shiftOne_at (pre post : List Nat) (b : Nat) :
    Stream.shiftOne ⟨pre ++ b :: post, pre.length⟩ =
      .ok (b, ⟨pre ++ b :: post, pre.length + 1⟩) := by
  have h : (pre ++ b :: post)[pre.length]? = some b := by
    rw [List.getElem?_append_right (le_refl _)]
    simp
  simp [Stream.shiftOne, h]

theorem Stream.isAtEnd_at (pre post : List Nat) (b : Nat) :
    Stream.isAtEnd ⟨pre ++ b :: post, pre.length⟩ = false := by
  simp only [Stream.isAtEnd, List.length_append, List.length_cons]
  simp only [decide_eq_false_iff_not]
  omega

theorem Stream.shiftMany_at (pre chunk post : List Nat) :
    Stream.shiftMany chunk.length ⟨pre ++ (chunk ++ post), pre.length⟩ =
      .ok (chunk, ⟨pre ++ (chunk ++ post), pre.length + chunk.length⟩) := by
  unfold Stream.shiftMany
  rw [if_pos (by simp only [List.length_append]; omega)]
  have hdrop : (pre ++ (chunk ++ post)).drop pre.length = chunk ++ post :=
    List.drop_left pre (chunk ++ post)
  rw [hdrop, List.take_left]

/-- Helper of `decodeDefHead` in `Cbor.ts`: splits the first byte into
`(majorType, low5)`. -/
def decodeFirstHeadByte (b0 : Nat) : Nat × Nat := (b0 / 32, b0 % 32)

/-- Variant of `decodeIntInternal` called with an explicit byte count: shifts
`nBytes` bytes and interprets them as a big-endian unsigned integer. -/
def decodeIntInternalN (nBytes : Nat) (s : Stream) : Except DErr (Nat × Stream) :=
  match s.shiftMany nBytes with
  | .error e => .error e
  | .ok (bs, s₁) =>
    match BigEndian.decode bs with
    | .ok v => .ok (v, s₁)
    | .error e => .error (.decodeError s!"failed to decode BigEndian int ({e})")

/-- `decodeDefHead` from `Cbor.ts`: decodes the CBOR initial byte plus its
definite-length argument, refusing indefinite-length markers and the reserved
major-type-7 float codes. -/
def decodeDefHead (s : Stream) : Except DErr ((Nat × Nat) × Stream) :=
  if s.isAtEnd then .error (.decodeError "Empty CBOR head")
  else
    match s.shiftOne with
    | .error e => .error e
    | .ok (first, s₁) =>
      let mn := decodeFirstHeadByte first
      let m := mn.1
      let n0 := mn.2
      if n0 ≤ 23 then .ok ((m, n0), s₁)
      else if n0 = 24 then
        match decodeIntInternalN 1 s₁ with
        | .error e => .error e
        | .ok (l, s₂) => .ok ((m, l), s₂)
      else if n0 = 25 then
        if m = 7 then
          .error (.decodeError
            "Unexpected float16 (hint: decode float16 by calling decodeFloat16 directly)")
        else
          match decodeIntInternalN 2 s₁ with
          | .error e => .error e
          | .ok (n, s₂) => .ok ((m, n), s₂)
      else if n0 = 26 then
        if m = 7 then
          .error (.decodeError
            "Unexpected float32 (hint: decode float32 by calling decodeFloat32 directly)")
        else
          match decodeIntInternalN 4 s₁ with
          | .error e => .error e
          | .ok (n, s₂) => .ok ((m, n), s₂)
      else if n0 = 27 then
        if m = 7 then
          .error (.decodeError
            "Unexpected float64 (hint: decode float64 by calling decodeFloat64 directly)")
        else
          match decodeIntInternalN 8 s₁ with
          | .error e => .error e
          | .ok (n, s₂) => .ok ((m, n), s₂)
      else if (m = 2 ∨ m = 3 ∨ m = 4 ∨ m = 5 ∨ m = 7) ∧ n0 = 31 then
        .error (.decodeError
          s!"Unexpected header m={m} n0={n0} (expected def instead of indef)")
      else .error (.decodeError "Bad CBOR header")

/-- Models the `while (e.length < k) e.unshift(0)` padding loops of
`encodeDefHead`. -/
def prepadZeros (k : Nat) (l : List Nat) : List Nat :=
  List.replicate (k - l.length) 0 ++ l

/-- `encodeDefHead` from `Cbor.ts`: shortest-form head encoding; `none` models
the `throw new Error("n out of range")` for `n ≥ 2^64`. -/
def encodeDefHead (m : Nat) (n : Nat) : Option (List Nat) :=
  if n ≤ 23 then some [32 * m + n]
  else if n ≤ 255 then some [32 * m + 24, n]
  else if n ≤ 256 * 256 - 1 then some [32 * m + 25, n / 256 % 256, n % 256]
  else if n ≤ 256 * 256 * 256 * 256 - 1 then
    some ((32 * m + 26) :: prepadZeros 4 (BigEndian.encode n))
  else if n ≤ 256 * 256 * 256 * 256 * 256 * 256 * 256 * 256 - 1 then
    some ((32 * m + 27) :: prepadZeros 8 (BigEndian.encode n))
  else none

/-- `encodeIndefHead` from `Cbor.ts`: `majorType*32 + 31`. -/
def encodeIndefHead (m : Nat) : List Nat := [32 * m + 31]

theorem BigEndian.decode_single {n : Nat} (h : n ≤ 255) :
    BigEndian.decode [n] = .ok n := by
  have hn : ¬ 255 < n := by omega
  simp [BigEndian.decode, BigEndian.decodeLoop, hn]

theorem BigEndian.decode_pair {n : Nat} (h : n ≤ 65535) :
    BigEndian.decode [n / 256 % 256, n % 256] = .ok n := by
  have hb1 : ¬ 255 < n / 256 % 256 := by omega
  have hb2 : ¬ 255 < n % 256 := by omega
  simp only [BigEndian.decode, List.isEmpty_cons, Bool.false_eq_true, if_false,
    BigEndian.decodeLoop, hb1, hb2]
  congr 1
  have h1 : (256 : Nat) ^ (0 + 1) = 256 := by norm_num
  simp only [List.length_cons, List.length_nil, pow_zero, Nat.mul_one, Nat.add_zero, h1]
  omega

theorem prepadZeros_length {k : Nat} {l : List Nat} (h : l.length ≤ k) :
    (prepadZeros k l).length = k := by
  simp only [prepadZeros, List.length_append, List.length_replicate]
  omega

theorem decode_prepadZeros (k n : Nat) (hn : 0 < n) :
    BigEndian.decode (prepadZeros k (BigEndian.encode n)) = .ok n := by
  have henc : BigEndian.encode n = BigEndian.natToBytesBE n := by
    rw [BigEndian.encode, if_neg (by omega)]
  rw [henc, prepadZeros, BigEndian.decode,
    if_neg (by simp [BigEndian.natToBytesBE_ne_nil n hn])]
  exact BigEndian.decodeLoop_replicate_zero _ (BigEndian.natToBytesBE_pos_decode n hn)

theorem decodeIntInternalN_at {k v : Nat} (pre chunk post : List Nat)
    (hk : chunk.length = k) (hdec : BigEndian.decode chunk = .ok v) :
    decodeIntInternalN k ⟨pre ++ (chunk ++ post), pre.length⟩ =
      .ok (v, ⟨pre ++ (chunk ++ post), pre.length + k⟩) := by
  subst hk
  unfold decodeIntInternalN
  rw [Stream.shiftMany_at]
  simp [hdec]

/-- Shape of every definite head encoding: a first byte `32*m + n0` with
`n0 ≤ 27`, followed by the extension bytes. -/
theorem encodeDefHead_shape {m n : Nat} {hb : List Nat}
    (henc : encodeDefHead m n = some hb) :
    ∃ n0 t, hb = (32 * m + n0) :: t ∧ n0 ≤ 27 := by
  unfold encodeDefHead at henc
  split_ifs at henc <;> injection henc with henc <;> subst henc
  · exact ⟨n, [], rfl, by omega⟩
  · exact ⟨24, [n], rfl, by omega⟩
  · exact ⟨25, [n / 256 % 256, n % 256], rfl, by omega⟩
  · exact ⟨26, prepadZeros 4 (BigEndian.encode n), rfl, by omega⟩
  · exact ⟨27, prepadZeros 8 (BigEndian.encode n), rfl, by omega⟩

/-- Definite-head roundtrip: `decodeDefHead` undoes `encodeDefHead` at any
stream position (for major type 7 only arguments `≤ 255` are decodable this
way, since the 2-, 4- and 8-byte extension codes of major type 7 are the
reserved float markers). -/
theorem decodeDefHead_at {m n : Nat} {hb : List Nat}
    (henc : encodeDefHead m n = some hb) (hm7 : m = 7 → n ≤ 255)
    (pre post : List Nat) :
    decodeDefHead ⟨pre ++ (hb ++ post), pre.length⟩ =
      .ok ((m, n), ⟨pre ++ (hb ++ post), pre.length + hb.length⟩) := by
  unfold encodeDefHead at henc
  split_ifs at henc with hA hB hC hD hE
  · -- inline form, n ≤ 23
    injection henc with henc
    subst henc
    have hdiv : (32 * m + n) / 32 = m := by omega
    have hmod : (32 * m + n) % 32 = n := by omega
    simp only [List.singleton_append, List.length_singleton]
    unfold decodeDefHead
    rw [Stream.isAtEnd_at]
    simp only [Bool.false_eq_true, if_false]
    rw [Stream.shiftOne_at]
    simp only [decodeFirstHeadByte, hdiv, hmod]
    rw [if_pos hA]
  · -- 1-byte extension, 24 ≤ n ≤ 255
    injection henc with henc
    subst henc
    have hdiv : (32 * m + 24) / 32 = m := by omega
    have hmod : (32 * m + 24) % 32 = 24 := by omega
    have hre : pre ++ ([32 * m + 24, n] ++ post) =
        pre ++ (32 * m + 24) :: ([n] ++ post) := by simp
    rw [hre]
    unfold decodeDefHead
    rw [Stream.isAtEnd_at]
    simp only [Bool.false_eq_true, if_false]
    rw [Stream.shiftOne_at]
    simp only [decodeFirstHeadByte, hdiv, hmod]
    rw [if_neg (by omega), if_pos trivial]
    have hs : (⟨pre ++ (32 * m + 24) :: ([n] ++ post), pre.length + 1⟩ : Stream) =
        ⟨(pre ++ [32 * m + 24]) ++ ([n] ++ post), (pre ++ [32 * m + 24]).length⟩ := by
      simp
    rw [hs, @decodeIntInternalN_at 1 n (pre ++ [32 * m + 24]) [n] post rfl
      (BigEndian.decode_single hB)]
    simp [List.append_assoc]
  · -- 2-byte extension, 256 ≤ n ≤ 65535
    injection henc with henc
    subst henc
    have hm : m ≠ 7 := fun h => by have := hm7 h; omega
    have hdiv : (32 * m + 25) / 32 = m := by omega
    have hmod : (32 * m + 25) % 32 = 25 := by omega
    have hre : pre ++ ([32 * m + 25, n / 256 % 256, n % 256] ++ post) =
        pre ++ (32 * m + 25) :: ([n / 256 % 256, n % 256] ++ post) := by simp
    rw [hre]
    unfold decodeDefHead
    rw [Stream.isAtEnd_at]
    simp only [Bool.false_eq_true, if_false]
    rw [Stream.shiftOne_at]
    simp only [decodeFirstHeadByte, hdiv, hmod]
    rw [if_neg (by omega), if_neg (by omega), if_pos trivial, if_neg hm]
    have hs : (⟨pre ++ (32 * m + 25) :: ([n / 256 % 256, n % 256] ++ post),
        pre.length + 1⟩ : Stream) =
        ⟨(pre ++ [32 * m + 25]) ++ ([n / 256 % 256, n % 256] ++ post),
          (pre ++ [32 * m + 25]).length⟩ := by
      simp
    rw [hs, @decodeIntInternalN_at 2 n (pre ++ [32 * m + 25]) [n / 256 % 256, n % 256]
      post rfl (BigEndian.decode_pair hC)]
    simp [List.append_assoc]
  · -- 4-byte extension, 65536 ≤ n < 2^32
    injection henc with henc
    subst henc
    have hm : m ≠ 7 := fun h => by have := hm7 h; omega
    have hdiv : (32 * m + 26) / 32 = m := by omega
    have hmod : (32 * m + 26) % 32 = 26 := by omega
    have hlen4 : (prepadZeros 4 (BigEndian.encode n)).length = 4 := by
      apply prepadZeros_length
    -- the encoded digits fit in four bytes
      rw [BigEndian.encode, if_neg (by omega)]
      exact BigEndian.natToBytesBE_length_le 4 n (by omega)
    unfold decodeDefHead
    rw [List.cons_append, Stream.isAtEnd_at]
    simp only [Bool.false_eq_true, if_false]
    rw [Stream.shiftOne_at]
    simp only [decodeFirstHeadByte, hdiv, hmod]
    rw [if_neg (by omega), if_neg (by omega), if_neg (by omega), if_pos trivial,
      if_neg hm]
    have hs : (⟨pre ++ (32 * m + 26) :: (prepadZeros 4 (BigEndian.encode n) ++ post),
        pre.length + 1⟩ : Stream) =
        ⟨(pre ++ [32 * m + 26]) ++ (prepadZeros 4 (BigEndian.encode n) ++ post),
          (pre ++ [32 * m + 26]).length⟩ := by
      simp
    rw [hs, decodeIntInternalN_at (pre ++ [32 * m + 26]) _ post hlen4
      (decode_prepadZeros 4 n (by omega))]
    simp [List.append_assoc, List.length_append, hlen4]
  · -- 8-byte extension, 2^32 ≤ n < 2^64
    injection henc with henc
    subst henc
    have hm : m ≠ 7 := fun h => by have := hm7 h; omega
    have hdiv : (32 * m + 27) / 32 = m := by omega
    have hmod : (32 * m + 27) % 32 = 27 := by omega
    have hlen8 : (prepadZeros 8 (BigEndian.encode n)).length = 8 := by
      apply prepadZeros_length
      rw [BigEndian.encode, if_neg (by omega)]
      exact BigEndian.natToBytesBE_length_le 8 n (by omega)
    unfold decodeDefHead
    rw [List.cons_append, Stream.isAtEnd_at]
    simp only [Bool.false_eq_true, if_false]
    rw [Stream.shiftOne_at]
    simp only [decodeFirstHeadByte, hdiv, hmod]
    rw [if_neg (by omega), if_neg (by omega), if_neg (by omega),
      if_neg (by omega), if_pos trivial, if_neg hm]
    have hs : (⟨pre ++ (32 * m + 27) :: (prepadZeros 8 (BigEndian.encode n) ++ post),
        pre.length + 1⟩ : Stream) =
        ⟨(pre ++ [32 * m + 27]) ++ (prepadZeros 8 (BigEndian.encode n) ++ post),
          (pre ++ [32 * m + 27]).length⟩ := by
      simp
    rw [hs, decodeIntInternalN_at (pre ++ [32 * m + 27]) _ post hlen8
      (decode_prepadZeros 8 n (by omega))]
    simp [List.append_assoc, List.length_append, hlen8]

/-- `isIndefBytes` from `Cbor.ts`: peeks for the indefinite byte-string marker
`2*32 + 31`. -/
def isIndefBytes (s : Stream) : Except DErr (Bool × Stream) :=
  match s.peekOne with
  | .error e => .error e
  | .ok (b, s') => .ok (decide (b = 2 * 32 + 31), s')

/-- Chunk loop of `decodeBytes` (`while peekOne() != 255`), with explicit fuel
standing in for the source's unbounded `while`; every chunk consumes at least
one head byte, so fuel `bytes.length + 1` can never run out on the inputs for
which the source loop terminates. -/
def decodeBytesChunks (fuel : Nat) (res : List Nat) (s : Stream) :
    Except DErr (List Nat × Stream) :=
  match fuel with
  | 0 => .error (.decodeError "out of fuel")
  | fuel + 1 =>
    match s.peekOne with
    | .error e => .error e
    | .ok (b, s₀) =>
      if b = 255 then .ok (res, s₀)
      else
        match decodeDefHead s₀ with
        | .error e => .error e
        | .ok ((_, n), s₁) =>
          if 64 < n then .error (.decodeError "Bytearray chunk too large")
          else
            match s₁.shiftMany n with
            | .error e => .error e
            | .ok (chunk, s₂) => decodeBytesChunks fuel (res ++ chunk) s₂

/-- `decodeBytes` from `Cbor.ts`: either a single definite chunk, or (after a
`0x5F` marker) a run of chunks, each at most 64 bytes, up to the `0xFF`
terminator.  The source's unreachable `throw` on a non-255 terminator is
modelled as a decode error with the same message. -/
def decodeBytes (s : Stream) : Except DErr (List Nat × Stream) :=
  match isIndefBytes s with
  | .error e => .error e
  | .ok (indef, s') =>
    if indef then
      match s'.shiftOne with
      | .error e => .error e
      | .ok (_, s₁) =>
        match decodeBytesChunks (s₁.bytes.length + 1) [] s₁ with
        | .error e => .error e
        | .ok (res, s₂) =>
          match s₂.shiftOne with
          | .error e => .error e
          | .ok (last, s₃) =>
            if last ≠ 255 then
              .error (.decodeError "invalid indef bytes termination byte")
            else .ok (res, s₃)
    else
      match decodeDefHead s' with
      | .error e => .error e
      | .ok ((m, n), s₁) =>
        if m ≠ 2 then .error (.decodeError "Invalid def bytes")
        else s₁.shiftMany n

/-- Models the `splice(0, 64)` chunking loop of `encodeBytes`. -/
def chunksOf64 : List Nat → List (List Nat)
  | [] => []
  | b :: rest => ((b :: rest).take 64) :: chunksOf64 ((b :: rest).drop 64)
termination_by l => l.length
decreasing_by simp only [List.length_drop, List.length_cons]; omega

/-- `encodeBytes` from `Cbor.ts`: a single definite chunk unless chunk
splitting is requested and the payload exceeds 64 bytes, in which case an
indefinite sequence of 64-byte definite chunks terminated by `0xFF`. -/
def encodeBytes (bytes : List Nat) (splitIntoChunks : Bool := false) :
    Option (List Nat) :=
  if bytes.length ≤ 64 ∨ splitIntoChunks = false then
    (encodeDefHead 2 bytes.length).map (fun head => head ++ bytes)
  else
    ((chunksOf64 bytes).mapM
        (fun chunk => (encodeDefHead 2 chunk.length).map (fun h => h ++ chunk))).map
      (fun parts => encodeIndefHead 2 ++ parts.flatten ++ [255])

/-- Variant of `decodeIntInternal` called without a byte count: decodes a byte
string and interprets it as a big-endian unsigned integer. -/
def decodeIntInternalBytes (s : Stream) : Except DErr (Nat × Stream) :=
  match decodeBytes s with
  | .error e => .error e
  | .ok (bs, s₁) =>
    match BigEndian.decode bs with
    | .ok v => .ok (v, s₁)
    | .error e => .error (.decodeError s!"failed to decode BigEndian int ({e})")

/-- `decodeInt` from `Cbor.ts`: major type 0/1 directly, or a tag-2/tag-3
bignum byte string. -/
def decodeInt (s : Stream) : Except DErr (Int × Stream) :=
  match decodeDefHead s with
  | .error e => .error e
  | .ok ((m, n), s₁) =>
    if m = 0 then .ok ((n : Int), s₁)
    else if m = 1 then .ok (-(n : Int) - 1, s₁)
    else if m = 6 then
      if n = 2 then
        match decodeIntInternalBytes s₁ with
        | .error e => .error e
        | .ok (v, s₂) => .ok ((v : Int), s₂)
      else if n = 3 then
        match decodeIntInternalBytes s₁ with
        | .error e => .error e
        | .ok (v, s₂) => .ok (-(v : Int) - 1, s₂)
      else .error (.decodeError s!"Unexpected tag m:{m}")
    else .error (.decodeError s!"Unexpected tag m:{m}")

/-- `encodeInt` from `Cbor.ts`: major type 0 up to `2^64 - 1`, tag-2 bignum
above; major type 1 down to `-(2^64)`, tag-3 bignum below (the source writes
the bound as `2n << 63n`). -/
def encodeInt (n : Int) : Option (List Nat) :=
  if 0 ≤ n ∧ n ≤ 2 ^ 64 - 1 then encodeDefHead 0 n.toNat
  else if 2 ^ 64 ≤ n then
    (encodeDefHead 6 2).bind
      (fun h => (encodeBytes (BigEndian.encode n.toNat)).map (fun b => h ++ b))
  else if n ≤ -1 ∧ -(2 ^ 64) ≤ n then encodeDefHead 1 (-n - 1).toNat
  else
    (encodeDefHead 6 3).bind
      (fun h => (encodeBytes (BigEndian.encode (-n - 1).toNat)).map (fun b => h ++ b))

theorem decodeBytes_def_at (bytes : List Nat) {len : Nat} {hb : List Nat}
    (hlen : bytes.length = len) (henc : encodeDefHead 2 len = some hb)
    (pre post : List Nat) :
    decodeBytes ⟨pre ++ ((hb ++ bytes) ++ post), pre.length⟩ =
      .ok (bytes, ⟨pre ++ ((hb ++ bytes) ++ post), pre.length + (hb ++ bytes).length⟩) := by
  subst hlen
  obtain ⟨n0, t, hhb, hn0⟩ := encodeDefHead_shape henc
  have hkey : pre ++ ((hb ++ bytes) ++ post) =
      pre ++ ((32 * 2 + n0) :: (t ++ (bytes ++ post))) := by
    subst hhb; simp
  have hpeek : Stream.peekOne ⟨pre ++ ((hb ++ bytes) ++ post), pre.length⟩ =
      .ok (32 * 2 + n0, ⟨pre ++ ((hb ++ bytes) ++ post), pre.length⟩) := by
    rw [hkey]; exact Stream.peekOne_at pre (t ++ (bytes ++ post)) (32 * 2 + n0)
  have hbne : ¬ (32 * 2 + n0 = 2 * 32 + 31) := by omega
  have hhead := decodeDefHead_at henc (by omega) pre (bytes ++ post)
  rw [show pre ++ (hb ++ (bytes ++ post)) = pre ++ ((hb ++ bytes) ++ post) by
    simp] at hhead
  have hshift : Stream.shiftMany bytes.length
      ⟨pre ++ (hb ++ (bytes ++ post)), pre.length + hb.length⟩ =
      .ok (bytes,
        ⟨pre ++ (hb ++ (bytes ++ post)),
          pre.length + (hb.length + bytes.length)⟩) := by
    rw [show (⟨pre ++ (hb ++ (bytes ++ post)), pre.length + hb.length⟩ : Stream) =
      ⟨(pre ++ hb) ++ (bytes ++ post), (pre ++ hb).length⟩ by simp]
    rw [Stream.shiftMany_at]
    simp [List.append_assoc]
    omega
  unfold decodeBytes isIndefBytes
  rw [hpeek]
  simp only [hbne, decide_False, Bool.false_eq_true, if_false]
  rw [hhead]
  simp [hshift]

theorem decodeIntInternalBytes_at (bytes : List Nat) {len v : Nat} {hb : List Nat}
    (hlen : bytes.length = len) (henc : encodeDefHead 2 len = some hb)
    (hdec : BigEndian.decode bytes = .ok v) (pre post : List Nat) :
    decodeIntInternalBytes ⟨pre ++ ((hb ++ bytes) ++ post), pre.length⟩ =
      .ok (v, ⟨pre ++ ((hb ++ bytes) ++ post), pre.length + (hb ++ bytes).length⟩) := by
  unfold decodeIntInternalBytes
  rw [decodeBytes_def_at bytes hlen henc pre post]
  simp [hdec]

/-- Integer roundtrip at any stream position: `decodeInt` undoes `encodeInt`
whenever the encoder succeeded. -/
theorem decodeInt_encodeInt_at {n : Int} {bs : List Nat}
    (henc : encodeInt n = some bs) (pre post : List Nat) :
    decodeInt ⟨pre ++ (bs ++ post), pre.length⟩ =
      .ok (n, ⟨pre ++ (bs ++ post), pre.length + bs.length⟩) := by
  unfold encodeInt at henc
  split_ifs at henc with h1 h2 h3
  · -- small non-negative: major type 0
    have hhead := decodeDefHead_at henc (by omega) pre post
    unfold decodeInt
    rw [hhead]
    simp [Int.toNat_of_nonneg h1.1]
  · -- large non-negative: tag-2 bignum
    rw [show encodeDefHead 6 2 = some [194] from rfl, Option.some_bind] at henc
    rw [show encodeBytes (BigEndian.encode n.toNat) =
        (encodeDefHead 2 (BigEndian.encode n.toNat).length).map
          (fun h => h ++ BigEndian.encode n.toNat) from by
      unfold encodeBytes; rw [if_pos (Or.inr rfl)]] at henc
    cases hh : encodeDefHead 2 (BigEndian.encode n.toNat).length with
    | none => rw [hh] at henc; simp at henc
    | some hb =>
      rw [hh] at henc
      have hbs : bs = [194] ++ (hb ++ BigEndian.encode n.toNat) := by
        simp only [Option.map_map, Option.map_some', Option.some.injEq] at henc
        rw [← henc]
      subst hbs
      have hassoc : pre ++ (([194] ++ (hb ++ BigEndian.encode n.toNat)) ++ post) =
          pre ++ ([194] ++ ((hb ++ BigEndian.encode n.toNat) ++ post)) := by simp
      rw [hassoc]
      have hhead := decodeDefHead_at (show encodeDefHead 6 2 = some [194] from rfl)
        (by omega) pre ((hb ++ BigEndian.encode n.toNat) ++ post)
      have hint : decodeIntInternalBytes
          ⟨pre ++ ([194] ++ ((hb ++ BigEndian.encode n.toNat) ++ post)),
            pre.length + ([194] : List Nat).length⟩ =
          .ok (n.toNat,
            ⟨pre ++ ([194] ++ ((hb ++ BigEndian.encode n.toNat) ++ post)),
              pre.length + ([194] : List Nat).length +
                (hb ++ BigEndian.encode n.toNat).length⟩) := by
        rw [show pre ++ ([194] ++ ((hb ++ BigEndian.encode n.toNat) ++ post)) =
            (pre ++ [194]) ++ ((hb ++ BigEndian.encode n.toNat) ++ post) from by simp,
          show pre.length + ([194] : List Nat).length = (pre ++ [194]).length from by simp]
        exact decodeIntInternalBytes_at (BigEndian.encode n.toNat) rfl hh
          (BigEndian.decode_encode n.toNat) (pre ++ [194]) post
      unfold decodeInt
      rw [hhead]
      have hn : ((n.toNat : Int)) = n := Int.toNat_of_nonneg (by positivity)
      simp only [hint]
      norm_num [hn, List.length_append]
      omega
  · -- small negative: major type 1
    have hhead := decodeDefHead_at henc (by omega) pre post
    unfold decodeInt
    rw [hhead]
    have hv : (((-n - 1).toNat : Int)) = -n - 1 := Int.toNat_of_nonneg (by omega)
    simp [hv]
    omega
  · -- large negative: tag-3 bignum
    rw [show encodeDefHead 6 3 = some [195] from rfl, Option.some_bind] at henc
    rw [show encodeBytes (BigEndian.encode (-n - 1).toNat) =
        (encodeDefHead 2 (BigEndian.encode (-n - 1).toNat).length).map
          (fun h => h ++ BigEndian.encode (-n - 1).toNat) from by
      unfold encodeBytes; rw [if_pos (Or.inr rfl)]] at henc
    cases hh : encodeDefHead 2 (BigEndian.encode (-n - 1).toNat).length with
    | none => rw [hh] at henc; simp at henc
    | some hb =>
      rw [hh] at henc
      have hbs : bs = [195] ++ (hb ++ BigEndian.encode (-n - 1).toNat) := by
        simp only [Option.map_map, Option.map_some', Option.some.injEq] at henc
        rw [← henc]
      subst hbs
      have hassoc : pre ++ (([195] ++ (hb ++ BigEndian.encode (-n - 1).toNat)) ++ post) =
          pre ++ ([195] ++ ((hb ++ BigEndian.encode (-n - 1).toNat) ++ post)) := by simp
      rw [hassoc]
      have hhead := decodeDefHead_at (show encodeDefHead 6 3 = some [195] from rfl)
        (by omega) pre ((hb ++ BigEndian.encode (-n - 1).toNat) ++ post)
      have hint : decodeIntInternalBytes
          ⟨pre ++ ([195] ++ ((hb ++ BigEndian.encode (-n - 1).toNat) ++ post)),
            pre.length + ([195] : List Nat).length⟩ =
          .ok ((-n - 1).toNat,
            ⟨pre ++ ([195] ++ ((hb ++ BigEndian.encode (-n - 1).toNat) ++ post)),
              pre.length + ([195] : List Nat).length +
                (hb ++ BigEndian.encode (-n - 1).toNat).length⟩) := by
        rw [show pre ++ ([195] ++ ((hb ++ BigEndian.encode (-n - 1).toNat) ++ post)) =
            (pre ++ [195]) ++ ((hb ++ BigEndian.encode (-n - 1).toNat) ++ post) from by simp,
          show pre.length + ([195] : List Nat).length = (pre ++ [195]).length from by simp]
        exact decodeIntInternalBytes_at (BigEndian.encode (-n - 1).toNat) rfl hh
          (BigEndian.decode_encode (-n - 1).toNat) (pre ++ [195]) post
      unfold decodeInt
      rw [hhead]
      have hv : (((-n - 1).toNat : Int)) = -n - 1 := by
        refine Int.toNat_of_nonneg ?_
        omega
      simp only [hint]
      norm_num [hv, List.length_append]
      omega

/-- C3: for every integer `n` of either sign and any magnitude the encoder can
emit (the modelled `none` arises only for bignum byte lengths `≥ 2^64`, which
no physical input reaches), `decodeInt (encodeInt n)` succeeds and returns
exactly `n`, consuming the whole encoding — small values via major type 0/1,
large ones via the tag-2/tag-3 bignum byte strings. -/
theorem decodeInt_encodeInt_roundtrip {n : Int} {bs : List Nat}
    (henc : encodeInt n = some bs) :
    decodeInt ⟨bs, 0⟩ = .ok (n, ⟨bs, bs.length⟩) := by
  have h := decodeInt_encodeInt_at henc [] []
  simpa using h

/-- Witness for C3 at the concrete input `-1000` (wire bytes `39 03 E7`). -/
theorem decodeInt_encodeInt_roundtrip_witness :
    encodeInt (-1000) = some [57, 3, 231] ∧
    decodeInt ⟨[57, 3, 231], 0⟩ = .ok (-1000, ⟨[57, 3, 231], 3⟩) :=
  ⟨by decide, decodeInt_encodeInt_roundtrip (by decide)⟩

/-- C10: `decodeBytes` does not validate the major type of chunk heads inside
an indefinite byte string; on `5F 01 AB FF`, whose chunk head `0x01` has major
type 0, it succeeds and returns the chunk content `[0xAB]`. -/
theorem decodeBytes_ignores_chunk_major_type :
    decodeBytes ⟨[95, 1, 171, 255], 0⟩ = .ok ([171], ⟨[95, 1, 171, 255], 4⟩) := by
  rfl

/-- `isIndefList` from `Cbor.ts`: peeks for the indefinite list marker
`4*32 + 31`. -/
def isIndefList (s : Stream) : Except DErr (Bool × Stream) :=
  match s.peekOne with
  | .error e => .error e
  | .ok (b, s') => .ok (decide (b = 4 * 32 + 31), s')

/-- Indefinite-items loop of `decodeList` (`while peekOne() != 255`), with
explicit fuel standing in for the unbounded `while` (each decoded CBOR item
consumes at least one byte, so fuel `bytes.length + 1` suffices whenever the
source loop terminates). -/
def decodeIndefListItems {T : Type} (d : IndexedDecoder T) :
    Nat → Nat → List T → DecodeM (List T)
  | 0, _, _ => fun _ => .error (.decodeError "out of fuel")
  | fuel + 1, i, res => fun s =>
    match s.peekOne with
    | .error e => .error e
    | .ok (b, s₀) =>
      if b = 255 then .ok (res, s₀)
      else
        match d s₀ i with
        | .error e => .error e
        | .ok (v, s₁) => decodeIndefListItems d fuel (i + 1) (res ++ [v]) s₁

/-- Definite-items loop of `decodeList` (`for i in 0..<n`). -/
def decodeDefListItems {T : Type} (d : IndexedDecoder T) :
    Nat → Nat → List T → DecodeM (List T)
  | 0, _, res => fun s => .ok (res, s)
  | count + 1, i, res => fun s =>
    match d s i with
    | .error e => .error e
    | .ok (v, s₁) => decodeDefListItems d count (i + 1) (res ++ [v]) s₁

/-- `decodeList` from `Cbor.ts`: indefinite form (items up to `0xFF`) or
definite form (head count followed by that many items), invoking the indexed
item decoder once per item. -/
def decodeList {T : Type} (d : IndexedDecoder T) : DecodeM (List T) := fun s =>
  match isIndefList s with
  | .error e => .error e
  | .ok (indef, s') =>
    if indef then
      match s'.shiftOne with
      | .error e => .error e
      | .ok (_, s₀) =>
        match decodeIndefListItems d (s₀.bytes.length + 1) 0 [] s₀ with
        | .error e => .error e
        | .ok (res, s₁) =>
          match s₁.shiftOne with
          | .error e => .error e
          | .ok (last, s₂) =>
            if last ≠ 255 then .error (.decodeError "Invalid def list head byte")
            else .ok (res, s₂)
    else
      match decodeDefHead s' with
      | .error e => .error e
      | .ok ((m, n), s₀) =>
        if m ≠ 4 then .error (.decodeError "invalid def list head byte")
        else decodeDefListItems d n 0 [] s₀

/-- `encodeIndefListStart` from `Cbor.ts`. -/
def encodeIndefListStart : List Nat := encodeIndefHead 4

/-- `encodeListInternal` from `Cbor.ts`: concatenation of the already encoded
items (a `for` loop re-appending onto `res`). -/
def encodeListInternal (list : List (List Nat)) : List Nat :=
  list.foldl (fun res item => res ++ item) []

/-- `INDEF_LIST_END` from `Cbor.ts`. -/
def INDEF_LIST_END : List Nat := [255]

/-- `encodeIndefList` from `Cbor.ts`. -/
def encodeIndefList (list : List (List Nat)) : List Nat :=
  encodeIndefListStart ++ encodeListInternal list ++ INDEF_LIST_END

/-- `encodeDefListStart` from `Cbor.ts`. -/
def encodeDefListStart (n : Nat) : Option (List Nat) := encodeDefHead 4 n

/-- `encodeDefList` from `Cbor.ts`. -/
def encodeDefList (items : List (List Nat)) : Option (List Nat) :=
  (encodeDefListStart items.length).map (fun h => h ++ encodeListInternal items)

/-- `encodeList` from `Cbor.ts`: the Haskell-compatible policy — indefinite
form for non-empty lists, definite-zero form for the empty list. -/
def encodeList (items : List (List Nat)) : Option (List Nat) :=
  if items.length > 0 then some (encodeIndefList items) else encodeDefList items

theorem encodeListInternal_eq_flatten (l : List (List Nat)) :
    encodeListInternal l = l.flatten := by
  suffices h : ∀ acc, l.foldl (fun res item => res ++ item) acc = acc ++ l.flatten by
    simpa [encodeListInternal] using h []
  induction l with
  | nil => intro acc; simp
  | cons x xs ih => intro acc; simp [ih]

theorem encodeList_nil : encodeList [] = some [128] := rfl

theorem encodeList_nonempty (items : List (List Nat)) (h : items ≠ []) :
    encodeList items = some (159 :: (items.flatten ++ [255])) := by
  unfold encodeList
  rw [if_pos (by cases items with
    | nil => exact absurd rfl h
    | cons x xs => simp)]
  unfold encodeIndefList encodeIndefListStart INDEF_LIST_END encodeIndefHead
  rw [encodeListInternal_eq_flatten]
  simp

/-- C4: `encodeList` emits exactly `[0x80]` for the empty list and exactly
`0x9F ++ concatenation ++ 0xFF` (the indefinite form) for every non-empty
list; the definite form is never produced for a non-empty list. -/
theorem encodeList_empty_def_nonempty_indef :
    encodeList [] = some [128] ∧
    ∀ items : List (List Nat), items ≠ [] →
      encodeList items = some (159 :: (items.flatten ++ [255])) :=
  ⟨encodeList_nil, fun items h => encodeList_nonempty items h⟩

/-- Witness for C4 at the singleton list `[[0xF5]]`. -/
theorem encodeList_empty_def_nonempty_indef_witness :
    encodeList [[245]] = some [159, 245, 255] := by
  have h := encodeList_empty_def_nonempty_indef.2 [[245]] (by simp)
  simpa using h

/-- An indexed decoder `d`, invoked with index `i`, decodes exactly the bytes
`bs` to `v` at any position of any stream, advancing past them. -/
def DecodesAtIdx {T : Type} (d : IndexedDecoder T) (i : Nat) (bs : List Nat)
    (v : T) : Prop :=
  ∀ pre post, d ⟨pre ++ (bs ++ post), pre.length⟩ i =
    .ok (v, ⟨pre ++ (bs ++ post), pre.length + bs.length⟩)

theorem decodeDefListItems_spec {T : Type} (d : IndexedDecoder T) :
    ∀ (items : List (List Nat)) (vals : List T) (i : Nat) (acc : List T)
      (pre post : List Nat),
      items.length = vals.length →
      (∀ j bs v, items[j]? = some bs → vals[j]? = some v →
        DecodesAtIdx d (i + j) bs v) →
      decodeDefListItems d items.length i acc
          ⟨pre ++ (items.flatten ++ post), pre.length⟩ =
        .ok (acc ++ vals,
          ⟨pre ++ (items.flatten ++ post), pre.length + items.flatten.length⟩) := by
  intro items
  induction items with
  | nil =>
    intro vals i acc pre post hlen hd
    have hv : vals = [] := List.eq_nil_of_length_eq_zero hlen.symm
    subst hv
    simp [decodeDefListItems]
  | cons it rest ih =>
    intro vals i acc pre post hlen hd
    cases vals with
    | nil => simp at hlen
    | cons v vrest =>
      have hlen' : rest.length = vrest.length := by simpa using hlen
      have hd0 : DecodesAtIdx d i it v := by
        have := hd 0 it v (by simp) (by simp)
        simpa using this
      have hd' : ∀ j bs vv, rest[j]? = some bs → vrest[j]? = some vv →
          DecodesAtIdx d (i + 1 + j) bs vv := by
        intro j bs vv hb hv
        have := hd (j + 1) bs vv (by simpa using hb) (by simpa using hv)
        rwa [show i + (j + 1) = i + 1 + j from by omega] at this
      have hitem := hd0 pre (rest.flatten ++ post)
      have hrec := ih vrest (i + 1) (acc ++ [v]) (pre ++ it) post hlen' hd'
      have hrec2 : decodeDefListItems d rest.length (i + 1) (acc ++ [v])
          ⟨pre ++ (it ++ (rest.flatten ++ post)), pre.length + it.length⟩ =
          .ok ((acc ++ [v]) ++ vrest,
            ⟨pre ++ (it ++ (rest.flatten ++ post)),
              pre.length + it.length + rest.flatten.length⟩) := by
        rw [show pre ++ (it ++ (rest.flatten ++ post)) =
            (pre ++ it) ++ (rest.flatten ++ post) from by simp,
          show pre.length + it.length = (pre ++ it).length from by simp]
        exact hrec
      simp only [List.flatten_cons]
      rw [show pre ++ ((it ++ rest.flatten) ++ post) =
        pre ++ (it ++ (rest.flatten ++ post)) from by simp]
      simp only [List.length_cons, decodeDefListItems]
      rw [hitem]
      simp only [hrec2]
      simp [List.append_assoc]
      omega

theorem decodeDefListItems_err {T : Type} (d : IndexedDecoder T) :
    ∀ (items : List (List Nat)) (vals : List T) (count i : Nat) (acc : List T)
      (pre rest : List Nat) (e : DErr),
      items.length = vals.length →
      (∀ j bs v, items[j]? = some bs → vals[j]? = some v →
        DecodesAtIdx d (i + j) bs v) →
      items.length < count →
      (∀ s, d s (i + items.length) = .error e) →
      decodeDefListItems d count i acc ⟨pre ++ (items.flatten ++ rest), pre.length⟩ =
        .error e := by
  intro items
  induction items with
  | nil =>
    intro vals count i acc pre rest e hlen hd hcount herr
    cases count with
    | zero => omega
    | succ c =>
      have herr' : ∀ s, d s i = .error e := by simpa using herr
      simp only [decodeDefListItems]
      simp [herr']
  | cons it rest2 ih =>
    intro vals count i acc pre rest e hlen hd hcount herr
    cases vals with
    | nil => simp at hlen
    | cons v vrest =>
      cases count with
      | zero => simp at hcount
      | succ c =>
        have hlen' : rest2.length = vrest.length := by simpa using hlen
        have hd0 : DecodesAtIdx d i it v := by
          have := hd 0 it v (by simp) (by simp)
          simpa using this
        have hd' : ∀ j bs vv, rest2[j]? = some bs → vrest[j]? = some vv →
            DecodesAtIdx d (i + 1 + j) bs vv := by
          intro j bs vv hb hv
          have := hd (j + 1) bs vv (by simpa using hb) (by simpa using hv)
          rwa [show i + (j + 1) = i + 1 + j from by omega] at this
        have herr' : ∀ s, d s (i + 1 + rest2.length) = .error e := by
          intro s
          have := herr s
          rwa [show i + (it :: rest2).length = i + 1 + rest2.length from by
            simp; omega] at this
        have hcount' : rest2.length < c := by simpa using hcount
        have hitem := hd0 pre (rest2.flatten ++ rest)
        have hrec := ih vrest c (i + 1) (acc ++ [v]) (pre ++ it) rest e hlen' hd'
          hcount' herr'
        have hrec2 : decodeDefListItems d c (i + 1) (acc ++ [v])
            ⟨pre ++ (it ++ (rest2.flatten ++ rest)), pre.length + it.length⟩ =
            .error e := by
          rw [show pre ++ (it ++ (rest2.flatten ++ rest)) =
              (pre ++ it) ++ (rest2.flatten ++ rest) from by simp,
            show pre.length + it.length = (pre ++ it).length from by simp]
          exact hrec
        simp only [List.flatten_cons]
        rw [show pre ++ ((it ++ rest2.flatten) ++ rest) =
          pre ++ (it ++ (rest2.flatten ++ rest)) from by simp]
        simp only [decodeDefListItems]
        rw [hitem]
        simp only [hrec2]

theorem decodeIndefListItems_spec {T : Type} (d : IndexedDecoder T) :
    ∀ (items : List (List Nat)) (vals : List T) (fuel i : Nat) (acc : List T)
      (pre post : List Nat),
      items.length = vals.length →
      (∀ j bs v, items[j]? = some bs → vals[j]? = some v →
        DecodesAtIdx d (i + j) bs v) →
      (∀ it ∈ items, ∃ b t, it = b :: t ∧ b ≠ 255) →
      items.length < fuel →
      decodeIndefListItems d fuel i acc
          ⟨pre ++ (items.flatten ++ (255 :: post)), pre.length⟩ =
        .ok (acc ++ vals,
          ⟨pre ++ (items.flatten ++ (255 :: post)),
            pre.length + items.flatten.length⟩) := by
  intro items
  induction items with
  | nil =>
    intro vals fuel i acc pre post hlen hd hne hfuel
    have hv : vals = [] := List.eq_nil_of_length_eq_zero hlen.symm
    subst hv
    cases fuel with
    | zero => omega
    | succ f =>
      simp only [decodeIndefListItems, List.flatten_nil, List.nil_append]
      rw [Stream.peekOne_at]
      simp
  | cons it rest ih =>
    intro vals fuel i acc pre post hlen hd hne hfuel
    cases vals with
    | nil => simp at hlen
    | cons v vrest =>
      cases fuel with
      | zero => simp at hfuel
      | succ f =>
        obtain ⟨b, t, hbt, hbne⟩ := hne it (by simp)
        have hlen' : rest.length = vrest.length := by simpa using hlen
        have hd0 : DecodesAtIdx d i it v := by
          have := hd 0 it v (by simp) (by simp)
          simpa using this
        have hd' : ∀ j bs vv, rest[j]? = some bs → vrest[j]? = some vv →
            DecodesAtIdx d (i + 1 + j) bs vv := by
          intro j bs vv hb hv
          have := hd (j + 1) bs vv (by simpa using hb) (by simpa using hv)
          rwa [show i + (j + 1) = i + 1 + j from by omega] at this
        have hne' : ∀ x ∈ rest, ∃ b2 t2, x = b2 :: t2 ∧ b2 ≠ 255 := by
          intro x hx
          exact hne x (by simp [hx])
        have hfuel' : rest.length < f := by simpa using hfuel
        have hpeek : Stream.peekOne
            ⟨pre ++ (it ++ (rest.flatten ++ (255 :: post))), pre.length⟩ =
            .ok (b, ⟨pre ++ (it ++ (rest.flatten ++ (255 :: post))), pre.length⟩) := by
          rw [show pre ++ (it ++ (rest.flatten ++ (255 :: post))) =
            pre ++ (b :: (t ++ (rest.flatten ++ (255 :: post)))) from by
              subst hbt; simp]
          exact Stream.peekOne_at pre (t ++ (rest.flatten ++ (255 :: post))) b
        have hitem := hd0 pre (rest.flatten ++ (255 :: post))
        have hrec := ih vrest f (i + 1) (acc ++ [v]) (pre ++ it) post hlen' hd'
          hne' hfuel'
        have hrec2 : decodeIndefListItems d f (i + 1) (acc ++ [v])
            ⟨pre ++ (it ++ (rest.flatten ++ (255 :: post))), pre.length + it.length⟩ =
            .ok ((acc ++ [v]) ++ vrest,
              ⟨pre ++ (it ++ (rest.flatten ++ (255 :: post))),
                pre.length + it.length + rest.flatten.length⟩) := by
          rw [show pre ++ (it ++ (rest.flatten ++ (255 :: post))) =
              (pre ++ it) ++ (rest.flatten ++ (255 :: post)) from by simp,
            show pre.length + it.length = (pre ++ it).length from by simp]
          exact hrec
        simp only [List.flatten_cons]
        rw [show pre ++ ((it ++ rest.flatten) ++ (255 :: post)) =
          pre ++ (it ++ (rest.flatten ++ (255 :: post))) from by simp]
        simp only [decodeIndefListItems]
        rw [hpeek]
        simp only [hbne, if_false, hitem, hrec2]
        simp [List.append_assoc]
        omega

theorem length_le_flatten {l : List (List Nat)} (h : ∀ it ∈ l, it ≠ []) :
    l.length ≤ l.flatten.length := by
  induction l with
  | nil => simp
  | cons x xs ih =>
    simp only [List.flatten_cons, List.length_append, List.length_cons]
    have hx : 1 ≤ x.length := by
      cases x with
      | nil => exact absurd rfl (h [] (by simp))
      | cons a t => simp
    have hxs := ih (fun it hit => h it (by simp [hit]))
    omega

/-- `decodeList` undoes `encodeList` at any stream position, provided every
item's bytes are decoded exactly by the item decoder at its index (CBOR item
encodings are always non-empty and never begin with the `0xFF` terminator
byte, which the last two hypotheses record). -/
theorem decodeList_encodeList_at {T : Type} (d : IndexedDecoder T)
    {items : List (List Nat)} {vals : List T} {bs : List Nat}
    (henc : encodeList items = some bs)
    (hlen : items.length = vals.length)
    (hd : ∀ j bsj v, items[j]? = some bsj → vals[j]? = some v →
      DecodesAtIdx d j bsj v)
    (hne : ∀ it ∈ items, ∃ b t, it = b :: t ∧ b ≠ 255)
    (pre post : List Nat) :
    decodeList d ⟨pre ++ (bs ++ post), pre.length⟩ =
      .ok (vals, ⟨pre ++ (bs ++ post), pre.length + bs.length⟩) := by
  cases items with
  | nil =>
    rw [encodeList_nil] at henc
    injection henc with henc
    subst henc
    have hv : vals = [] := List.eq_nil_of_length_eq_zero hlen.symm
    subst hv
    have hpeek : Stream.peekOne ⟨pre ++ ([128] ++ post), pre.length⟩ =
        .ok (128, ⟨pre ++ ([128] ++ post), pre.length⟩) := by
      rw [show pre ++ ([128] ++ post) = pre ++ (128 :: post) from by simp]
      exact Stream.peekOne_at pre post 128
    have h128 : ¬ ((128 : Nat) = 4 * 32 + 31) := by omega
    have hhead := decodeDefHead_at
      (show encodeDefHead 4 0 = some [128] from rfl) (by omega) pre post
    unfold decodeList isIndefList
    rw [hpeek]
    simp only [h128, decide_False, Bool.false_eq_true, if_false]
    rw [hhead]
    simp [decodeDefListItems]
  | cons x xs =>
    rw [encodeList_nonempty (x :: xs) (by simp)] at henc
    injection henc with henc
    subst henc
    have hx1 : ∀ it ∈ (x :: xs), it ≠ [] := by
      intro it hit
      obtain ⟨b, t, hbt, _⟩ := hne it hit
      simp [hbt]
    have hflat : (x :: xs).length ≤ (x :: xs).flatten.length := length_le_flatten hx1
    simp only [List.length_cons] at hflat
    have hpeek : Stream.peekOne
        ⟨pre ++ ((159 :: ((x :: xs).flatten ++ [255])) ++ post), pre.length⟩ =
        .ok (159, ⟨pre ++ ((159 :: ((x :: xs).flatten ++ [255])) ++ post),
          pre.length⟩) := by
      rw [show pre ++ ((159 :: ((x :: xs).flatten ++ [255])) ++ post) =
        pre ++ (159 :: (((x :: xs).flatten ++ [255]) ++ post)) from by simp]
      exact Stream.peekOne_at pre (((x :: xs).flatten ++ [255]) ++ post) 159
    have hshift1 : Stream.shiftOne
        ⟨pre ++ ((159 :: ((x :: xs).flatten ++ [255])) ++ post), pre.length⟩ =
        .ok (159, ⟨pre ++ ((159 :: ((x :: xs).flatten ++ [255])) ++ post),
          pre.length + 1⟩) := by
      rw [show pre ++ ((159 :: ((x :: xs).flatten ++ [255])) ++ post) =
        pre ++ (159 :: (((x :: xs).flatten ++ [255]) ++ post)) from by simp]
      exact Stream.shiftOne_at pre (((x :: xs).flatten ++ [255]) ++ post) 159
    have hd' : ∀ j bsj v, (x :: xs)[j]? = some bsj → vals[j]? = some v →
        DecodesAtIdx d (0 + j) bsj v := by
      intro j bsj v hb hv
      simpa using hd j bsj v hb hv
    have hloop := decodeIndefListItems_spec d (x :: xs) vals
      ((pre ++ ((159 :: ((x :: xs).flatten ++ [255])) ++ post)).length + 1) 0 []
      (pre ++ [159]) post hlen hd' hne
      (by simp only [List.length_append, List.length_cons, List.length_nil]; omega)
    have hloop2 : decodeIndefListItems d
        ((pre ++ ((159 :: ((x :: xs).flatten ++ [255])) ++ post)).length + 1) 0 []
        ⟨pre ++ ((159 :: ((x :: xs).flatten ++ [255])) ++ post), pre.length + 1⟩ =
        .ok (vals, ⟨pre ++ ((159 :: ((x :: xs).flatten ++ [255])) ++ post),
          pre.length + 1 + (x :: xs).flatten.length⟩) := by
      have heq : pre ++ ((159 :: ((x :: xs).flatten ++ [255])) ++ post) =
          (pre ++ [159]) ++ ((x :: xs).flatten ++ (255 :: post)) := by simp
      have heq2 : pre.length + 1 = (pre ++ [159]).length := by simp
      rw [heq, heq2]
      have := hloop
      rw [← heq] at this
      simpa [heq] using this
    have hshift2 : Stream.shiftOne
        ⟨pre ++ ((159 :: ((x :: xs).flatten ++ [255])) ++ post),
          pre.length + 1 + (x :: xs).flatten.length⟩ =
        .ok (255, ⟨pre ++ ((159 :: ((x :: xs).flatten ++ [255])) ++ post),
          pre.length + 1 + (x :: xs).flatten.length + 1⟩) := by
      rw [show pre ++ ((159 :: ((x :: xs).flatten ++ [255])) ++ post) =
          ((pre ++ [159]) ++ (x :: xs).flatten) ++ (255 :: post) from by simp,
        show pre.length + 1 + (x :: xs).flatten.length =
          ((pre ++ [159]) ++ (x :: xs).flatten).length from by
            simp only [List.length_append, List.length_cons, List.length_nil]]
      exact Stream.shiftOne_at ((pre ++ [159]) ++ (x :: xs).flatten) post 255
    unfold decodeList isIndefList
    rw [hpeek]
    have h159 : ((159 : Nat) = 4 * 32 + 31) := by omega
    simp only [h159, decide_True, if_true]
    rw [hshift1]
    simp only [hloop2, hshift2]
    simp [List.length_append, List.length_cons]
    omega

/-- `decodeBool` from `Cbor.ts`: a single `0xF5`/`0xF4` byte. -/
def decodeBool (s : Stream) : Except DErr (Bool × Stream) :=
  match s.shiftOne with
  | .error e => .error e
  | .ok (b, s₁) =>
    if b = 245 then .ok (true, s₁)
    else if b = 244 then .ok (false, s₁)
    else .error (.decodeError "unexpected non-boolean cbor object")

/-- `encodeBool` from `Cbor.ts`. -/
def encodeBool (b : Bool) : List Nat := if b then [245] else [244]

/-- A decoder `d` decodes exactly the bytes `bs` to `v` at any position of any
stream, advancing past them. -/
def DecodesAt {T : Type} (d : DecodeM T) (bs : List Nat) (v : T) : Prop :=
  ∀ pre post, d ⟨pre ++ (bs ++ post), pre.length⟩ =
    .ok (v, ⟨pre ++ (bs ++ post), pre.length + bs.length⟩)

theorem decodeBool_decodesAt (v : Bool) : DecodesAt decodeBool (encodeBool v) v := by
  intro pre post
  cases v with
  | true =>
    unfold encodeBool decodeBool
    rw [show pre ++ (((if true then [245] else [244]) : List Nat) ++ post) =
      pre ++ (245 :: post) from by simp]
    rw [Stream.shiftOne_at]
    simp
  | false =>
    unfold encodeBool decodeBool
    rw [show pre ++ (((if false then [245] else [244]) : List Nat) ++ post) =
      pre ++ (244 :: post) from by simp]
    rw [Stream.shiftOne_at]
    simp

/-- `decodeConstrTag` from `Cbor.ts`: the biased tag-6 constructor-tag scheme,
with dead zones `(102,121)`, `(127,1280)` and `(1400,∞)` rejected. -/
def decodeConstrTag (s : Stream) : Except DErr (Int × Stream) :=
  match decodeDefHead s with
  | .error e => .error e
  | .ok ((m, n), s₁) =>
    if m ≠ 6 then .error (.decodeError "Unexpected constr tag head")
    else if n < 102 then .error (.decodeError s!"unexpected encoded constr tag {n}")
    else if n = 102 then
      match decodeDefHead s₁ with
      | .error e => .error e
      | .ok ((mCheck, nCheck), s₂) =>
        if mCheck ≠ 4 ∨ nCheck ≠ 2 then
          .error (.decodeError "Unexpected constr tag nested head")
        else decodeInt s₂
    else if n < 121 then .error (.decodeError s!"unexpected encoded constr tag {n}")
    else if n ≤ 127 then .ok ((n : Int) - 121, s₁)
    else if n < 1280 then .error (.decodeError s!"unexpected encoded constr tag {n}")
    else if n ≤ 1400 then .ok ((n : Int) - 1280 + 7, s₁)
    else .error (.decodeError s!"unexpected encoded constr tag {n}")

/-- `encodeConstrTag` from `Cbor.ts`: `121+tag` for tags 0–6, `1280+(tag-7)`
for tags 7–127, and the argument-102 escape with a nested `(4,2)` head plus a
plain integer for tags ≥ 128; `none` models the `throw` on a negative tag. -/
def encodeConstrTag (tag : Int) : Option (List Nat) :=
  if tag < 0 then none
  else if 0 ≤ tag ∧ tag ≤ 6 then encodeDefHead 6 (121 + tag).toNat
  else if 7 ≤ tag ∧ tag ≤ 127 then encodeDefHead 6 (1280 + (tag - 7)).toNat
  else
    ((encodeDefHead 6 102).bind
      (fun a => (encodeDefHead 4 2).map (fun b => a ++ b))).bind
      (fun ab => (encodeInt tag).map (fun c => ab ++ c))

/-- `encodeConstr` from `Cbor.ts`: tag head followed by the field list encoded
via `encodeList`. -/
def encodeConstr (tag : Int) (fields : List (List Nat)) : Option (List Nat) :=
  (encodeConstrTag tag).bind (fun t => (encodeList fields).map (fun l => t ++ l))

/-- The per-item wrapper of `decodeConstr`: an array of field decoders selects
by index and rejects extra fields, a single decoder handles the homogeneous
case. -/
def constrItemDecoder {T : Type} (fieldDecoder : List (DecodeM T) ⊕ DecodeM T) :
    IndexedDecoder T := fun s i =>
  match fieldDecoder with
  | .inl arr =>
    match arr[i]? with
    | none =>
      .error (.decodeError
        ("expected " ++ toString arr.length ++ " fields, got more than " ++ toString i))
    | some dec => dec s
  | .inr dec => dec s

/-- `decodeConstr` from `Cbor.ts`: decodes the constructor tag, then the field
list, then (for an array of field decoders) checks that no field is missing. -/
def decodeConstr {T : Type} (fieldDecoder : List (DecodeM T) ⊕ DecodeM T) :
    DecodeM (Int × List T) := fun s =>
  match decodeConstrTag s with
  | .error e => .error e
  | .ok (tag, s₁) =>
    match decodeList (constrItemDecoder fieldDecoder) s₁ with
    | .error e => .error e
    | .ok (res, s₂) =>
      match fieldDecoder with
      | .inl arr =>
        if res.length < arr.length then
          .error (.decodeError
            ("expected " ++ toString arr.length ++ " fields, only got " ++
              toString res.length))
        else .ok ((tag, res), s₂)
      | .inr _ => .ok ((tag, res), s₂)

/-- Constructor-tag roundtrip at any stream position, across all three bias
ranges. -/
theorem decodeConstrTag_encodeConstrTag_at {tag : Int} {tb : List Nat}
    (henc : encodeConstrTag tag = some tb) (pre post : List Nat) :
    decodeConstrTag ⟨pre ++ (tb ++ post), pre.length⟩ =
      .ok (tag, ⟨pre ++ (tb ++ post), pre.length + tb.length⟩) := by
  unfold encodeConstrTag at henc
  -- split_ifs discharges the negative-tag branch (`none = some tb`) itself
  split_ifs at henc with h0 h1 h2
  · -- tags 0..6: argument 121+tag in [121,127]
    have hhead := decodeDefHead_at henc (by omega) pre post
    unfold decodeConstrTag
    rw [hhead]
    dsimp only
    rw [if_neg (by omega), if_neg (by omega), if_neg (by omega),
      if_neg (by omega), if_pos (by omega)]
    rw [show (((121 + tag).toNat : Int)) - 121 = tag from by omega]
  · -- tags 7..127: argument 1280+(tag-7) in [1280,1400]
    have hhead := decodeDefHead_at henc (by omega) pre post
    unfold decodeConstrTag
    rw [hhead]
    dsimp only
    rw [if_neg (by omega), if_neg (by omega), if_neg (by omega),
      if_neg (by omega), if_neg (by omega), if_neg (by omega),
      if_pos (by omega)]
    rw [show (((1280 + (tag - 7)).toNat : Int)) - 1280 + 7 = tag from by omega]
  · -- tags >= 128: the 102 escape
    rw [show ((encodeDefHead 6 102).bind
        (fun a => (encodeDefHead 4 2).map (fun b => a ++ b))) =
        some ([216, 102] ++ [130]) from rfl, Option.some_bind] at henc
    cases hi : encodeInt tag with
    | none => rw [hi] at henc; exact Option.noConfusion henc
    | some ib =>
      rw [hi] at henc
      simp only [Option.map_some', Option.some.injEq] at henc
      subst henc
      have hassoc : pre ++ ((([216, 102] ++ [130]) ++ ib) ++ post) =
          pre ++ ([216, 102] ++ ([130] ++ (ib ++ post))) := by simp
      rw [hassoc]
      have hhead := decodeDefHead_at
        (show encodeDefHead 6 102 = some [216, 102] from rfl) (by omega)
        pre ([130] ++ (ib ++ post))
      have hhead2 : decodeDefHead
          ⟨pre ++ ([216, 102] ++ ([130] ++ (ib ++ post))),
            pre.length + ([216, 102] : List Nat).length⟩ =
          .ok ((4, 2), ⟨pre ++ ([216, 102] ++ ([130] ++ (ib ++ post))),
            pre.length + ([216, 102] : List Nat).length +
              ([130] : List Nat).length⟩) := by
        rw [show pre ++ ([216, 102] ++ ([130] ++ (ib ++ post))) =
            (pre ++ [216, 102]) ++ ([130] ++ (ib ++ post)) from by simp,
          show pre.length + ([216, 102] : List Nat).length =
            (pre ++ [216, 102]).length from by simp]
        exact decodeDefHead_at
          (show encodeDefHead 4 2 = some [130] from rfl) (by omega)
          (pre ++ [216, 102]) (ib ++ post)
      have hint : decodeInt
          ⟨pre ++ ([216, 102] ++ ([130] ++ (ib ++ post))),
            pre.length + ([216, 102] : List Nat).length +
              ([130] : List Nat).length⟩ =
          .ok (tag, ⟨pre ++ ([216, 102] ++ ([130] ++ (ib ++ post))),
            pre.length + ([216, 102] : List Nat).length +
              ([130] : List Nat).length + ib.length⟩) := by
        rw [show pre ++ ([216, 102] ++ ([130] ++ (ib ++ post))) =
            (pre ++ [216, 102] ++ [130]) ++ (ib ++ post) from by simp,
          show pre.length + ([216, 102] : List Nat).length +
            ([130] : List Nat).length = (pre ++ [216, 102] ++ [130]).length
            from by simp]
        exact decodeInt_encodeInt_at hi (pre ++ [216, 102] ++ [130]) post
      unfold decodeConstrTag
      rw [hhead]
      dsimp only
      rw [if_neg (by omega), if_neg (by omega), if_pos rfl]
      rw [hhead2]
      dsimp only
      rw [if_neg (by simp), hint]
      simp [List.length_append]
      omega

theorem decodeConstr_encodeConstr_at {T : Type} (d : DecodeM T) (e : T → List Nat)
    (hinv : ∀ v : T, DecodesAt d (e v) v)
    (hne : ∀ v : T, ∃ b t, e v = b :: t ∧ b ≠ 255)
    (tag : Int) (vals : List T) {bs : List Nat}
    (henc : encodeConstr tag (vals.map e) = some bs) (pre post : List Nat) :
    decodeConstr (.inr d) ⟨pre ++ (bs ++ post), pre.length⟩ =
      .ok ((tag, vals), ⟨pre ++ (bs ++ post), pre.length + bs.length⟩) := by
  unfold encodeConstr at henc
  cases ht : encodeConstrTag tag with
  | none => rw [ht] at henc; exact Option.noConfusion henc
  | some tb =>
    rw [ht, Option.some_bind] at henc
    cases hl : encodeList (vals.map e) with
    | none => rw [hl] at henc; exact Option.noConfusion henc
    | some lb =>
      rw [hl] at henc
      simp only [Option.map_some', Option.some.injEq] at henc
      subst henc
      have hassoc : pre ++ ((tb ++ lb) ++ post) = pre ++ (tb ++ (lb ++ post)) := by
        simp
      rw [hassoc]
      have htag := decodeConstrTag_encodeConstrTag_at ht pre (lb ++ post)
      have hd' : ∀ j bsj v, (vals.map e)[j]? = some bsj → vals[j]? = some v →
          DecodesAtIdx (constrItemDecoder (.inr d)) j bsj v := by
        intro j bsj v hb hv
        rw [List.getElem?_map, hv, Option.map_some', Option.some.injEq] at hb
        subst hb
        intro pre2 post2
        exact hinv v pre2 post2
      have hne' : ∀ it ∈ vals.map e, ∃ b t, it = b :: t ∧ b ≠ 255 := by
        intro it hit
        obtain ⟨v, _, rfl⟩ := List.mem_map.mp hit
        exact hne v
      have hlist : decodeList (constrItemDecoder (.inr d))
          ⟨pre ++ (tb ++ (lb ++ post)), pre.length + tb.length⟩ =
          .ok (vals, ⟨pre ++ (tb ++ (lb ++ post)),
            pre.length + tb.length + lb.length⟩) := by
        rw [show pre ++ (tb ++ (lb ++ post)) = (pre ++ tb) ++ (lb ++ post)
            from by simp,
          show pre.length + tb.length = (pre ++ tb).length from by simp]
        exact decodeList_encodeList_at (constrItemDecoder (.inr d)) hl
          (by simp) hd' hne' (pre ++ tb) post
      unfold decodeConstr
      rw [htag]
      dsimp only
      rw [hlist]
      dsimp only
      simp [List.length_append]
      omega

/-- C1: for every non-negative constructor tag in any of the three bias ranges
(0–6 → argument 121+tag, 7–127 → argument 1280+(tag-7), ≥128 → the
argument-102 escape with a nested (4,2) head) and every list of fields encoded
by `e`, `decodeConstr` with a field decoder that inverts `e` undoes
`encodeConstr`, returning `(tag, fields)` unchanged.  (CBOR item encodings are
non-empty and never start with the terminator byte `0xFF`; the hypothesis
`hne` records this property of the field encoder.) -/
theorem decodeConstr_encodeConstr_roundtrip {T : Type} (d : DecodeM T)
    (e : T → List Nat)
    (hinv : ∀ v : T, DecodesAt d (e v) v)
    (hne : ∀ v : T, ∃ b t, e v = b :: t ∧ b ≠ 255)
    (tag : Int) (vals : List T) {bs : List Nat}
    (henc : encodeConstr tag (vals.map e) = some bs) :
    decodeConstr (.inr d) ⟨bs, 0⟩ = .ok ((tag, vals), ⟨bs, bs.length⟩) := by
  have h := decodeConstr_encodeConstr_at d e hinv hne tag vals henc [] []
  simpa using h

/-- Witness for C1 at tag 5000 (third bias range) with two boolean fields. -/
theorem decodeConstr_encodeConstr_roundtrip_witness :
    encodeConstr 5000 ([true, false].map encodeBool) =
      some [216, 102, 130, 25, 19, 136, 159, 245, 244, 255] ∧
    decodeConstr (.inr decodeBool)
        ⟨[216, 102, 130, 25, 19, 136, 159, 245, 244, 255], 0⟩ =
      .ok ((5000, [true, false]),
        ⟨[216, 102, 130, 25, 19, 136, 159, 245, 244, 255], 10⟩) :=
  ⟨by decide,
    decodeConstr_encodeConstr_roundtrip decodeBool encodeBool
      decodeBool_decodesAt
      (fun v => by
        cases v with
        | true => exact ⟨245, [], rfl, by omega⟩
        | false => exact ⟨244, [], rfl, by omega⟩)
      5000 [true, false] (by decide)⟩

/-- For major type 7 with argument ≥ 256, the head encoding uses one of the
2/4/8-byte extension codes, which `decodeDefHead` refuses as reserved float
markers. -/
theorem decodeDefHead_float_reserved {n : Nat} {hb : List Nat}
    (henc : encodeDefHead 7 n = some hb) (h256 : 256 ≤ n) (pre post : List Nat) :
    ∃ msg, decodeDefHead ⟨pre ++ (hb ++ post), pre.length⟩ =
      .error (.decodeError msg) := by
  unfold encodeDefHead at henc
  split_ifs at henc with hA hB hC hD
  · omega
  · omega
  · injection henc with henc
    subst henc
    refine ⟨"Unexpected float16 (hint: decode float16 by calling decodeFloat16 directly)", ?_⟩
    unfold decodeDefHead
    rw [show pre ++ ([32 * 7 + 25, n / 256 % 256, n % 256] ++ post) =
      pre ++ ((32 * 7 + 25) :: ([n / 256 % 256, n % 256] ++ post)) from by simp]
    rw [Stream.isAtEnd_at]
    simp only [Bool.false_eq_true, if_false]
    rw [Stream.shiftOne_at]
    simp only [decodeFirstHeadByte,
      show (32 * 7 + 25) / 32 = 7 from by omega,
      show (32 * 7 + 25) % 32 = 25 from by omega]
    rw [if_neg (by omega), if_neg (by omega), if_pos trivial, if_pos trivial]
  · injection henc with henc
    subst henc
    refine ⟨"Unexpected float32 (hint: decode float32 by calling decodeFloat32 directly)", ?_⟩
    unfold decodeDefHead
    rw [List.cons_append, Stream.isAtEnd_at]
    simp only [Bool.false_eq_true, if_false]
    rw [Stream.shiftOne_at]
    simp only [decodeFirstHeadByte,
      show (32 * 7 + 26) / 32 = 7 from by omega,
      show (32 * 7 + 26) % 32 = 26 from by omega]
    rw [if_neg (by omega), if_neg (by omega), if_neg (by omega), if_pos trivial,
      if_pos trivial]
  · injection henc with henc
    subst henc
    refine ⟨"Unexpected float64 (hint: decode float64 by calling decodeFloat64 directly)", ?_⟩
    unfold decodeDefHead
    rw [List.cons_append, Stream.isAtEnd_at]
    simp only [Bool.false_eq_true, if_false]
    rw [Stream.shiftOne_at]
    simp only [decodeFirstHeadByte,
      show (32 * 7 + 27) / 32 = 7 from by omega,
      show (32 * 7 + 27) % 32 = 27 from by omega]
    rw [if_neg (by omega), if_neg (by omega), if_neg (by omega),
      if_neg (by omega), if_pos trivial, if_pos trivial]

/-- C2: a constructor head whose tag-6 argument lies in a dead zone
(`102 < n < 121`, `127 < n < 1280` or `n > 1400`) makes `decodeConstrTag`
fail with a `DecodeError`; and after the escape argument 102, any nested
definite head other than exactly `(majorType 4, count 2)` also makes it fail
with a `DecodeError`. -/
theorem decodeConstrTag_dead_zones :
    (∀ (n : Nat) (hb post : List Nat),
      ((102 < n ∧ n < 121) ∨ (127 < n ∧ n < 1280) ∨ 1400 < n) →
      encodeDefHead 6 n = some hb →
      decodeConstrTag ⟨hb ++ post, 0⟩ =
        .error (.decodeError s!"unexpected encoded constr tag {n}")) ∧
    (∀ (m2 n2 : Nat) (hb2 post : List Nat),
      ¬(m2 = 4 ∧ n2 = 2) →
      encodeDefHead m2 n2 = some hb2 →
      ∃ msg, decodeConstrTag ⟨([216, 102] ++ hb2) ++ post, 0⟩ =
        .error (.decodeError msg)) := by
  constructor
  · intro n hb post hdead henc
    have hhead := decodeDefHead_at henc (by omega) [] post
    simp only [List.nil_append, List.length_nil, Nat.zero_add] at hhead
    unfold decodeConstrTag
    rw [hhead]
    dsimp only
    rcases hdead with ⟨ha, hb'⟩ | ⟨ha, hb'⟩ | ha
    · rw [if_neg (by omega), if_neg (by omega), if_neg (by omega),
        if_pos (by omega)]
    · rw [if_neg (by omega), if_neg (by omega), if_neg (by omega),
        if_neg (by omega), if_neg (by omega), if_pos (by omega)]
    · rw [if_neg (by omega), if_neg (by omega), if_neg (by omega),
        if_neg (by omega), if_neg (by omega), if_neg (by omega),
        if_neg (by omega)]
  · intro m2 n2 hb2 post hne henc
    have hhead := decodeDefHead_at
      (show encodeDefHead 6 102 = some [216, 102] from rfl) (by omega)
      [] (hb2 ++ post)
    simp only [List.nil_append, List.length_nil, Nat.zero_add] at hhead
    by_cases h7 : m2 = 7 ∧ 256 ≤ n2
    · -- the nested head itself is a reserved float code
      obtain ⟨hm2eq, h7n⟩ := h7
      subst hm2eq
      obtain ⟨msg, hmsg⟩ := decodeDefHead_float_reserved henc h7n [216, 102] post
      refine ⟨msg, ?_⟩
      unfold decodeConstrTag
      rw [show ([216, 102] ++ hb2) ++ post = [216, 102] ++ (hb2 ++ post)
        from by simp]
      rw [hhead]
      dsimp only
      rw [if_neg (by omega), if_neg (by omega), if_pos rfl]
      rw [show (⟨[216, 102] ++ (hb2 ++ post), ([216, 102] : List Nat).length⟩ :
          Stream) = ⟨[216, 102] ++ (hb2 ++ post), ([216, 102] : List Nat).length⟩
        from rfl]
      rw [show decodeDefHead
          ⟨[216, 102] ++ (hb2 ++ post), ([216, 102] : List Nat).length⟩ =
          .error (.decodeError msg) from hmsg]
    · -- the nested head decodes, but is not (4,2)
      have hm7 : m2 = 7 → n2 ≤ 255 := by
        intro hm
        by_contra hc
        exact h7 ⟨hm, by omega⟩
      have hhead2 := decodeDefHead_at henc hm7 [216, 102] post
      refine ⟨"Unexpected constr tag nested head", ?_⟩
      unfold decodeConstrTag
      rw [show ([216, 102] ++ hb2) ++ post = [216, 102] ++ (hb2 ++ post)
        from by simp]
      rw [hhead]
      dsimp only
      rw [if_neg (by omega), if_neg (by omega), if_pos rfl]
      rw [hhead2]
      dsimp only
      rw [if_pos (by omega)]

/-- Witness for C2 at the dead-zone argument 103 and at the nested head
`(4, 3)` after the escape argument 102. -/
theorem decodeConstrTag_dead_zones_witness :
    decodeConstrTag ⟨[216, 103], 0⟩ =
      .error (.decodeError "unexpected encoded constr tag 103") ∧
    ∃ msg, decodeConstrTag ⟨[216, 102, 131], 0⟩ =
      .error (.decodeError msg) :=
  ⟨by
    have h := decodeConstrTag_dead_zones.1 103 [216, 103] []
      (by omega) (by decide)
    simpa using h,
  by
    have h := decodeConstrTag_dead_zones.2 4 3 [131] []
      (by omega) (by decide)
    simpa using h⟩

theorem getElem?_some_lt {α : Type} {l : List α} {i : Nat} {a : α}
    (h : l[i]? = some a) : i < l.length := by
  by_contra hc
  rw [List.getElem?_eq_none (by omega)] at h
  exact Option.noConfusion h

/-- `decodeList` undoes `encodeDefList` at any stream position (definite
form). -/
theorem decodeList_encodeDefList_at {T : Type} (d : IndexedDecoder T)
    {items : List (List Nat)} {vals : List T} {bs : List Nat}
    (henc : encodeDefList items = some bs)
    (hlen : items.length = vals.length)
    (hd : ∀ j bsj v, items[j]? = some bsj → vals[j]? = some v →
      DecodesAtIdx d j bsj v)
    (pre post : List Nat) :
    decodeList d ⟨pre ++ (bs ++ post), pre.length⟩ =
      .ok (vals, ⟨pre ++ (bs ++ post), pre.length + bs.length⟩) := by
  unfold encodeDefList encodeDefListStart at henc
  cases hh : encodeDefHead 4 items.length with
  | none => rw [hh] at henc; exact Option.noConfusion henc
  | some hb =>
    rw [hh] at henc
    simp only [Option.map_some', Option.some.injEq] at henc
    rw [encodeListInternal_eq_flatten] at henc
    subst henc
    obtain ⟨n0, t, hhb, hn0⟩ := encodeDefHead_shape hh
    have hne159 : ¬ (32 * 4 + n0 = 4 * 32 + 31) := by omega
    have hpeek : Stream.peekOne
        ⟨pre ++ ((hb ++ items.flatten) ++ post), pre.length⟩ =
        .ok (32 * 4 + n0,
          ⟨pre ++ ((hb ++ items.flatten) ++ post), pre.length⟩) := by
      rw [show pre ++ ((hb ++ items.flatten) ++ post) =
        pre ++ ((32 * 4 + n0) :: (t ++ (items.flatten ++ post))) from by
          subst hhb; simp]
      exact Stream.peekOne_at pre (t ++ (items.flatten ++ post)) (32 * 4 + n0)
    have hhead := decodeDefHead_at hh (by omega) pre (items.flatten ++ post)
    rw [show pre ++ (hb ++ (items.flatten ++ post)) =
      pre ++ ((hb ++ items.flatten) ++ post) from by simp] at hhead
    have hd' : ∀ j bsj v, items[j]? = some bsj → vals[j]? = some v →
        DecodesAtIdx d (0 + j) bsj v := by
      intro j bsj v hb2 hv
      simpa using hd j bsj v hb2 hv
    have hloop := decodeDefListItems_spec d items vals 0 [] (pre ++ hb) post
      hlen hd'
    have hloop2 : decodeDefListItems d items.length 0 []
        ⟨pre ++ ((hb ++ items.flatten) ++ post), pre.length + hb.length⟩ =
        .ok (vals, ⟨pre ++ ((hb ++ items.flatten) ++ post),
          pre.length + hb.length + items.flatten.length⟩) := by
      rw [show pre ++ ((hb ++ items.flatten) ++ post) =
          (pre ++ hb) ++ (items.flatten ++ post) from by simp,
        show pre.length + hb.length = (pre ++ hb).length from by simp]
      simpa using hloop
    unfold decodeList isIndefList
    rw [hpeek]
    simp only [hne159, decide_False, Bool.false_eq_true, if_false]
    rw [hhead]
    dsimp only
    rw [if_neg (by simp), hloop2]
    simp [List.length_append]
    omega

/-- `decodeList` on a definite list propagates the item decoder's failure at
position `p` after the first `p` items decoded successfully. -/
theorem decodeList_encodeDefList_err {T : Type} (d : IndexedDecoder T)
    {items : List (List Nat)} {vals : List T} {bs : List Nat} {e : DErr}
    (p : Nat)
    (henc : encodeDefList items = some bs)
    (hlen : items.length = vals.length)
    (hp : p < items.length)
    (hd : ∀ j bsj v, j < p → items[j]? = some bsj → vals[j]? = some v →
      DecodesAtIdx d j bsj v)
    (herr : ∀ s, d s p = .error e)
    (pre post : List Nat) :
    decodeList d ⟨pre ++ (bs ++ post), pre.length⟩ = .error e := by
  unfold encodeDefList encodeDefListStart at henc
  cases hh : encodeDefHead 4 items.length with
  | none => rw [hh] at henc; exact Option.noConfusion henc
  | some hb =>
    rw [hh] at henc
    simp only [Option.map_some', Option.some.injEq] at henc
    rw [encodeListInternal_eq_flatten] at henc
    subst henc
    obtain ⟨n0, t, hhb, hn0⟩ := encodeDefHead_shape hh
    have hne159 : ¬ (32 * 4 + n0 = 4 * 32 + 31) := by omega
    have hpeek : Stream.peekOne
        ⟨pre ++ ((hb ++ items.flatten) ++ post), pre.length⟩ =
        .ok (32 * 4 + n0,
          ⟨pre ++ ((hb ++ items.flatten) ++ post), pre.length⟩) := by
      rw [show pre ++ ((hb ++ items.flatten) ++ post) =
        pre ++ ((32 * 4 + n0) :: (t ++ (items.flatten ++ post))) from by
          subst hhb; simp]
      exact Stream.peekOne_at pre (t ++ (items.flatten ++ post)) (32 * 4 + n0)
    have hhead := decodeDefHead_at hh (by omega) pre (items.flatten ++ post)
    rw [show pre ++ (hb ++ (items.flatten ++ post)) =
      pre ++ ((hb ++ items.flatten) ++ post) from by simp] at hhead
    have htklen : (items.take p).length = p := by
      rw [List.length_take]
      omega
    have hd'' : ∀ j bsj v, (items.take p)[j]? = some bsj →
        (vals.take p)[j]? = some v → DecodesAtIdx d (0 + j) bsj v := by
      intro j bsj v hb2 hv
      have hj : j < p := by
        have := getElem?_some_lt hb2
        rwa [htklen] at this
      rw [List.getElem?_take, if_pos hj] at hb2
      rw [List.getElem?_take, if_pos hj] at hv
      simpa using hd j bsj v hj hb2 hv
    have herr' : ∀ s, d s (0 + (items.take p).length) = .error e := by
      intro s
      rw [htklen]
      simpa using herr s
    have hloop := decodeDefListItems_err d (items.take p) (vals.take p)
      items.length 0 [] (pre ++ hb) ((items.drop p).flatten ++ post) e
      (by simp [List.length_take, hlen]) hd'' (by rw [htklen]; omega) herr'
    have hsplit : items.flatten ++ post =
        (items.take p).flatten ++ ((items.drop p).flatten ++ post) := by
      have hff : items.flatten =
          (items.take p).flatten ++ (items.drop p).flatten := by
        conv_lhs => rw [← List.take_append_drop p items]
        rw [List.flatten_append]
      rw [hff, List.append_assoc]
    have hloop2 : decodeDefListItems d items.length 0 []
        ⟨pre ++ ((hb ++ items.flatten) ++ post), pre.length + hb.length⟩ =
        .error e := by
      rw [show pre ++ ((hb ++ items.flatten) ++ post) =
          (pre ++ hb) ++ (items.flatten ++ post) from by simp,
        show pre.length + hb.length = (pre ++ hb).length from by simp,
        hsplit]
      exact hloop
    unfold decodeList isIndefList
    rw [hpeek]
    simp only [hne159, decide_False, Bool.false_eq_true, if_false]
    rw [hhead]
    dsimp only
    rw [if_neg (by simp), hloop2]

/-- Per-item wrapper of `decodeTuple`: required decoder by index, then
optional decoder, then the "expected at most" error. -/
def tupleItemDecoder {T : Type} (itemDecoders optionalDecoders : List (DecodeM T)) :
    IndexedDecoder T := fun s i =>
  match itemDecoders[i]? with
  | some dec => dec s
  | none =>
    match optionalDecoders[i - itemDecoders.length]? with
    | some dec => dec s
    | none =>
      .error (.decodeError
        ("expected at most " ++
          toString (itemDecoders.length + optionalDecoders.length) ++
          " items, got more than " ++ toString i))

/-- `decodeTuple` from `Cbor.ts`: list decode with per-index decoder
selection, plus the trailing "expected at least" arity check. -/
def decodeTuple {T : Type} (itemDecoders optionalDecoders : List (DecodeM T)) :
    DecodeM (List T) := fun s =>
  match decodeList (tupleItemDecoder itemDecoders optionalDecoders) s with
  | .error e => .error e
  | .ok (res, s₁) =>
    if res.length < itemDecoders.length then
      .error (.decodeError
        ("expected at least " ++ toString itemDecoders.length ++
          " items, only got " ++ toString res.length))
    else .ok (res, s₁)

/-- `encodeTuple` from `Cbor.ts`: always the definite list form. -/
def encodeTuple (tuple : List (List Nat)) : Option (List Nat) :=
  encodeDefList tuple

theorem tupleItemDecoder_sel {T : Type} (req opt : List (DecodeM T)) (j : Nat)
    (dec : DecodeM T) (hj : (req ++ opt)[j]? = some dec) :
    ∀ s, tupleItemDecoder req opt s j = dec s := by
  intro s
  unfold tupleItemDecoder
  by_cases hlt : j < req.length
  · rw [List.getElem?_append, if_pos hlt] at hj
    rw [hj]
  · rw [List.getElem?_append, if_neg hlt] at hj
    rw [List.getElem?_eq_none (by omega), hj]

theorem tupleItemDecoder_overflow {T : Type} (req opt : List (DecodeM T))
    (j : Nat) (hj : req.length + opt.length ≤ j) :
    ∀ s, tupleItemDecoder req opt s j = .error (.decodeError
      ("expected at most " ++ toString (req.length + opt.length) ++
        " items, got more than " ++ toString j)) := by
  intro s
  unfold tupleItemDecoder
  rw [List.getElem?_eq_none (by omega), List.getElem?_eq_none (by omega)]

/-- C8: `decodeTuple` with `k` required and `m` optional item decoders, on a
definite list of `j` decodable items: succeeds exactly when `k ≤ j ≤ k+m`,
fails with a `DecodeError` when `j < k` ("expected at least") and when
`j > k+m` ("expected at most"). -/
theorem decodeTuple_arity {T : Type} (req opt : List (DecodeM T))
    (items : List (List Nat)) (vals : List T) {bs : List Nat}
    (henc : encodeDefList items = some bs)
    (hlen : items.length = vals.length)
    (hd : ∀ (j : Nat) (bsj : List Nat) (v : T) (dec : DecodeM T),
      items[j]? = some bsj → vals[j]? = some v →
      (req ++ opt)[j]? = some dec → DecodesAt dec bsj v)
    (pre post : List Nat) :
    (req.length ≤ items.length → items.length ≤ req.length + opt.length →
      decodeTuple req opt ⟨pre ++ (bs ++ post), pre.length⟩ =
        .ok (vals, ⟨pre ++ (bs ++ post), pre.length + bs.length⟩)) ∧
    (items.length < req.length →
      ∃ msg, decodeTuple req opt ⟨pre ++ (bs ++ post), pre.length⟩ =
        .error (.decodeError msg)) ∧
    (req.length + opt.length < items.length →
      ∃ msg, decodeTuple req opt ⟨pre ++ (bs ++ post), pre.length⟩ =
        .error (.decodeError msg)) := by
  have hdidx : ∀ (bound : Nat), items.length ≤ req.length + opt.length ∨
      bound ≤ req.length + opt.length →
      ∀ j bsj v, (j < bound ∨ bound = items.length) →
      items[j]? = some bsj → vals[j]? = some v →
      DecodesAtIdx (tupleItemDecoder req opt) j bsj v := by
    intro bound hbound j bsj v hjb hb2 hv
    have hjlen : j < items.length := getElem?_some_lt hb2
    have hjlt : j < req.length + opt.length := by
      rcases hbound with hbound | hbound <;> rcases hjb with hjb | hjb <;> omega
    have hsome : ∃ dec, (req ++ opt)[j]? = some dec := by
      cases hdec : (req ++ opt)[j]? with
      | none =>
        have := List.getElem?_eq_none_iff.mp hdec
        simp [List.length_append] at this
        omega
      | some dec => exact ⟨dec, rfl⟩
    obtain ⟨dec, hdec⟩ := hsome
    have hda := hd j bsj v dec hb2 hv hdec
    intro pre2 post2
    rw [tupleItemDecoder_sel req opt j dec hdec]
    exact hda pre2 post2
  refine ⟨?_, ?_, ?_⟩
  · -- k ≤ j ≤ k+m: success
    intro hk hkm
    have hlist := decodeList_encodeDefList_at (tupleItemDecoder req opt) henc hlen
      (fun j bsj v hb2 hv =>
        hdidx items.length (Or.inl hkm) j bsj v (Or.inr rfl) hb2 hv)
      pre post
    unfold decodeTuple
    rw [hlist]
    dsimp only
    rw [if_neg (by omega)]
  · -- j < k: "expected at least" failure
    intro hk
    have hlist := decodeList_encodeDefList_at (tupleItemDecoder req opt) henc hlen
      (fun j bsj v hb2 hv => by
        have hj : j < items.length := getElem?_some_lt hb2
        exact hdidx items.length (Or.inr (by omega)) j bsj v (Or.inr rfl) hb2 hv)
      pre post
    refine ⟨"expected at least " ++ toString req.length ++
      " items, only got " ++ toString vals.length, ?_⟩
    unfold decodeTuple
    rw [hlist]
    dsimp only
    rw [if_pos (by omega)]
  · -- j > k+m: "expected at most" failure at item index k+m
    intro hkm
    have herr := tupleItemDecoder_overflow req opt (req.length + opt.length)
      (le_refl _)
    have hlist := decodeList_encodeDefList_err (tupleItemDecoder req opt)
      (req.length + opt.length) henc hlen hkm
      (fun j bsj v hj hb2 hv =>
        hdidx (req.length + opt.length) (Or.inr (le_refl _)) j bsj v
          (Or.inl hj) hb2 hv)
      herr pre post
    refine ⟨"expected at most " ++ toString (req.length + opt.length) ++
      " items, got more than " ++ toString (req.length + opt.length), ?_⟩
    unfold decodeTuple
    rw [hlist]

/-- Witness for C8 at k = 1 required, m = 1 optional boolean decoders with a
2-item, a 0-item and a 3-item list. -/
theorem decodeTuple_arity_witness :
    decodeTuple [decodeBool] [decodeBool] ⟨[130, 245, 244], 0⟩ =
      .ok ([true, false], ⟨[130, 245, 244], 3⟩) ∧
    (∃ msg, decodeTuple [decodeBool] [decodeBool] ⟨[128], 0⟩ =
      .error (.decodeError msg)) ∧
    (∃ msg, decodeTuple [decodeBool] [decodeBool] ⟨[131, 245, 244, 245], 0⟩ =
      .error (.decodeError msg)) := by
  have hd2 : ∀ (j : Nat) (bsj : List Nat) (v : Bool) (dec : DecodeM Bool),
      ([[245], [244]] : List (List Nat))[j]? = some bsj →
      ([true, false] : List Bool)[j]? = some v →
      (([decodeBool] ++ [decodeBool] : List (DecodeM Bool)))[j]? = some dec →
      DecodesAt dec bsj v := by
    intro j bsj v dec hb hv hdec
    match j, hb, hv, hdec with
    | 0, hb, hv, hdec =>
      cases hb; cases hv; cases hdec
      exact decodeBool_decodesAt true
    | 1, hb, hv, hdec =>
      cases hb; cases hv; cases hdec
      exact decodeBool_decodesAt false
  have hd0 : ∀ (j : Nat) (bsj : List Nat) (v : Bool) (dec : DecodeM Bool),
      ([] : List (List Nat))[j]? = some bsj →
      ([] : List Bool)[j]? = some v →
      (([decodeBool] ++ [decodeBool] : List (DecodeM Bool)))[j]? = some dec →
      DecodesAt dec bsj v := by
    intro j bsj v dec hb hv hdec
    simp at hb
  have hd3 : ∀ (j : Nat) (bsj : List Nat) (v : Bool) (dec : DecodeM Bool),
      ([[245], [244], [245]] : List (List Nat))[j]? = some bsj →
      ([true, false, true] : List Bool)[j]? = some v →
      (([decodeBool] ++ [decodeBool] : List (DecodeM Bool)))[j]? = some dec →
      DecodesAt dec bsj v := by
    intro j bsj v dec hb hv hdec
    match j, hb, hv, hdec with
    | 0, hb, hv, hdec =>
      cases hb; cases hv; cases hdec
      exact decodeBool_decodesAt true
    | 1, hb, hv, hdec =>
      cases hb; cases hv; cases hdec
      exact decodeBool_decodesAt false
  refine ⟨?_, ?_, ?_⟩
  · have h := (decodeTuple_arity [decodeBool] [decodeBool] [[245], [244]]
      [true, false]
      (show encodeDefList [[245], [244]] = some [130, 245, 244] from by decide)
      (by decide) hd2 [] []).1 (by decide) (by decide)
    simpa using h
  · have h := (decodeTuple_arity [decodeBool] [decodeBool] []
      []
      (show encodeDefList [] = some [128] from by decide)
      (by decide) hd0 [] []).2.1 (by decide)
    simpa using h
  · have h := (decodeTuple_arity [decodeBool] [decodeBool] [[245], [244], [245]]
      [true, false, true]
      (show encodeDefList [[245], [244], [245]] = some [131, 245, 244, 245]
        from by decide)
      (by decide) hd3 [] []).2.2 (by decide)
    simpa using h

/-- The chunk loop of `decodeBytes` accepts any run of chunks whose declared
lengths are at most 64, concatenating their payloads until the `0xFF`
terminator.  Each chunk is given as a (head, payload) pair with the head
produced by `encodeDefHead 2 payload.length`. -/
theorem decodeBytesChunks_spec :
    ∀ (pairs : List (List Nat × List Nat)) (fuel : Nat) (res : List Nat)
      (pre post : List Nat),
      (∀ p ∈ pairs, encodeDefHead 2 p.2.length = some p.1 ∧ p.2.length ≤ 64) →
      pairs.length < fuel →
      decodeBytesChunks fuel res
          ⟨pre ++ ((pairs.map fun p => p.1 ++ p.2).flatten ++ (255 :: post)),
            pre.length⟩ =
        .ok (res ++ (pairs.map fun p => p.2).flatten,
          ⟨pre ++ ((pairs.map fun p => p.1 ++ p.2).flatten ++ (255 :: post)),
            pre.length + (pairs.map fun p => p.1 ++ p.2).flatten.length⟩) := by
  intro pairs
  induction pairs with
  | nil =>
    intro fuel res pre post hp hfuel
    cases fuel with
    | zero => omega
    | succ f =>
      simp only [List.map_nil, List.flatten_nil, List.nil_append]
      simp only [decodeBytesChunks]
      rw [Stream.peekOne_at]
      simp
  | cons p rest ih =>
    intro fuel res pre post hp hfuel
    obtain ⟨h1, c⟩ := p
    cases fuel with
    | zero => simp at hfuel
    | succ f =>
      obtain ⟨henc0, hle⟩ := hp (h1, c) (by simp)
      have henc : encodeDefHead 2 c.length = some h1 := henc0
      have hle2 : c.length ≤ 64 := hle
      obtain ⟨n0, t, hbt, hn0⟩ := encodeDefHead_shape henc
      have hp2 : ∀ q ∈ rest, encodeDefHead 2 q.2.length = some q.1 ∧ q.2.length ≤ 64 :=
        fun q hq => hp q (by simp [hq])
      have hfuel2 : rest.length < f := by simpa using hfuel
      have hpeek : Stream.peekOne
          ⟨pre ++ (h1 ++ (c ++ ((rest.map fun q => q.1 ++ q.2).flatten ++ (255 :: post)))),
            pre.length⟩ =
          .ok (32 * 2 + n0,
            ⟨pre ++ (h1 ++ (c ++ ((rest.map fun q => q.1 ++ q.2).flatten ++ (255 :: post)))),
              pre.length⟩) := by
        rw [show pre ++ (h1 ++ (c ++ ((rest.map fun q => q.1 ++ q.2).flatten ++ (255 :: post)))) =
            pre ++ ((32 * 2 + n0) ::
              (t ++ (c ++ ((rest.map fun q => q.1 ++ q.2).flatten ++ (255 :: post))))) from by
          rw [hbt]; simp]
        exact Stream.peekOne_at pre
          (t ++ (c ++ ((rest.map fun q => q.1 ++ q.2).flatten ++ (255 :: post)))) (32 * 2 + n0)
      have hhead := decodeDefHead_at henc (by omega) pre
        (c ++ ((rest.map fun q => q.1 ++ q.2).flatten ++ (255 :: post)))
      have hshift : Stream.shiftMany c.length
          ⟨pre ++ (h1 ++ (c ++ ((rest.map fun q => q.1 ++ q.2).flatten ++ (255 :: post)))),
            pre.length + h1.length⟩ =
          .ok (c,
            ⟨pre ++ (h1 ++ (c ++ ((rest.map fun q => q.1 ++ q.2).flatten ++ (255 :: post)))),
              pre.length + h1.length + c.length⟩) := by
        rw [show pre ++ (h1 ++ (c ++ ((rest.map fun q => q.1 ++ q.2).flatten ++ (255 :: post)))) =
            (pre ++ h1) ++ (c ++ ((rest.map fun q => q.1 ++ q.2).flatten ++ (255 :: post)))
          from by simp,
          show pre.length + h1.length = (pre ++ h1).length from by simp]
        exact Stream.shiftMany_at (pre ++ h1) c
          ((rest.map fun q => q.1 ++ q.2).flatten ++ (255 :: post))
      have hrec := ih f (res ++ c) (pre ++ h1 ++ c) post hp2 hfuel2
      have hrec2 : decodeBytesChunks f (res ++ c)
          ⟨pre ++ (h1 ++ (c ++ ((rest.map fun q => q.1 ++ q.2).flatten ++ (255 :: post)))),
            pre.length + h1.length + c.length⟩ =
          .ok ((res ++ c) ++ (rest.map fun q => q.2).flatten,
            ⟨pre ++ (h1 ++ (c ++ ((rest.map fun q => q.1 ++ q.2).flatten ++ (255 :: post)))),
              pre.length + h1.length + c.length +
                (rest.map fun q => q.1 ++ q.2).flatten.length⟩) := by
        rw [show pre ++ (h1 ++ (c ++ ((rest.map fun q => q.1 ++ q.2).flatten ++ (255 :: post)))) =
            (pre ++ h1 ++ c) ++ ((rest.map fun q => q.1 ++ q.2).flatten ++ (255 :: post))
          from by simp,
          show pre.length + h1.length + c.length = (pre ++ h1 ++ c).length
            from by simp only [List.length_append]]
        exact hrec
      simp only [List.map_cons, List.flatten_cons]
      rw [show pre ++ ((((h1, c).1 ++ (h1, c).2) ++ (rest.map fun q => q.1 ++ q.2).flatten) ++
          (255 :: post)) =
        pre ++ (h1 ++ (c ++ ((rest.map fun q => q.1 ++ q.2).flatten ++ (255 :: post))))
        from by simp]
      simp only [decodeBytesChunks]
      rw [hpeek]
      dsimp only
      rw [if_neg (by omega)]
      rw [hhead]
      dsimp only
      rw [if_neg (by omega)]
      rw [hshift]
      dsimp only
      rw [hrec2]
      simp [List.append_assoc]
      omega

/-- The chunk loop of `decodeBytes` fails with "Bytearray chunk too large" as
soon as a chunk head declares a length above 64, after any run of valid
chunks. -/
theorem decodeBytesChunks_err :
    ∀ (pairs : List (List Nat × List Nat)) (fuel : Nat) (res : List Nat)
      (pre tail : List Nat) (nbad : Nat) (bh : List Nat),
      (∀ p ∈ pairs, encodeDefHead 2 p.2.length = some p.1 ∧ p.2.length ≤ 64) →
      pairs.length < fuel →
      encodeDefHead 2 nbad = some bh →
      64 < nbad →
      decodeBytesChunks fuel res
          ⟨pre ++ ((pairs.map fun p => p.1 ++ p.2).flatten ++ (bh ++ tail)),
            pre.length⟩ =
        .error (.decodeError "Bytearray chunk too large") := by
  intro pairs
  induction pairs with
  | nil =>
    intro fuel res pre tail nbad bh hp hfuel hencb hbig
    obtain ⟨n0, t, hbt, hn0⟩ := encodeDefHead_shape hencb
    cases fuel with
    | zero => omega
    | succ f =>
      simp only [List.map_nil, List.flatten_nil, List.nil_append]
      have hpeek : Stream.peekOne ⟨pre ++ (bh ++ tail), pre.length⟩ =
          .ok (32 * 2 + n0, ⟨pre ++ (bh ++ tail), pre.length⟩) := by
        rw [show pre ++ (bh ++ tail) = pre ++ ((32 * 2 + n0) :: (t ++ tail)) from by
          rw [hbt]; simp]
        exact Stream.peekOne_at pre (t ++ tail) (32 * 2 + n0)
      have hhead := decodeDefHead_at hencb (by omega) pre tail
      simp only [decodeBytesChunks]
      rw [hpeek]
      dsimp only
      rw [if_neg (by omega)]
      rw [hhead]
      dsimp only
      rw [if_pos hbig]
  | cons p rest ih =>
    intro fuel res pre tail nbad bh hp hfuel hencb hbig
    obtain ⟨h1, c⟩ := p
    cases fuel with
    | zero => simp at hfuel
    | succ f =>
      obtain ⟨henc0, hle⟩ := hp (h1, c) (by simp)
      have henc : encodeDefHead 2 c.length = some h1 := henc0
      have hle2 : c.length ≤ 64 := hle
      obtain ⟨n0, t, hbt, hn0⟩ := encodeDefHead_shape henc
      have hp2 : ∀ q ∈ rest, encodeDefHead 2 q.2.length = some q.1 ∧ q.2.length ≤ 64 :=
        fun q hq => hp q (by simp [hq])
      have hfuel2 : rest.length < f := by simpa using hfuel
      have hpeek : Stream.peekOne
          ⟨pre ++ (h1 ++ (c ++ ((rest.map fun q => q.1 ++ q.2).flatten ++ (bh ++ tail)))),
            pre.length⟩ =
          .ok (32 * 2 + n0,
            ⟨pre ++ (h1 ++ (c ++ ((rest.map fun q => q.1 ++ q.2).flatten ++ (bh ++ tail)))),
              pre.length⟩) := by
        rw [show pre ++ (h1 ++ (c ++ ((rest.map fun q => q.1 ++ q.2).flatten ++ (bh ++ tail)))) =
            pre ++ ((32 * 2 + n0) ::
              (t ++ (c ++ ((rest.map fun q => q.1 ++ q.2).flatten ++ (bh ++ tail))))) from by
          rw [hbt]; simp]
        exact Stream.peekOne_at pre
          (t ++ (c ++ ((rest.map fun q => q.1 ++ q.2).flatten ++ (bh ++ tail)))) (32 * 2 + n0)
      have hhead := decodeDefHead_at henc (by omega) pre
        (c ++ ((rest.map fun q => q.1 ++ q.2).flatten ++ (bh ++ tail)))
      have hshift : Stream.shiftMany c.length
          ⟨pre ++ (h1 ++ (c ++ ((rest.map fun q => q.1 ++ q.2).flatten ++ (bh ++ tail)))),
            pre.length + h1.length⟩ =
          .ok (c,
            ⟨pre ++ (h1 ++ (c ++ ((rest.map fun q => q.1 ++ q.2).flatten ++ (bh ++ tail)))),
              pre.length + h1.length + c.length⟩) := by
        rw [show pre ++ (h1 ++ (c ++ ((rest.map fun q => q.1 ++ q.2).flatten ++ (bh ++ tail)))) =
            (pre ++ h1) ++ (c ++ ((rest.map fun q => q.1 ++ q.2).flatten ++ (bh ++ tail)))
          from by simp,
          show pre.length + h1.length = (pre ++ h1).length from by simp]
        exact Stream.shiftMany_at (pre ++ h1) c
          ((rest.map fun q => q.1 ++ q.2).flatten ++ (bh ++ tail))
      have hrec := ih f (res ++ c) (pre ++ h1 ++ c) tail nbad bh hp2 hfuel2 hencb hbig
      have hrec2 : decodeBytesChunks f (res ++ c)
          ⟨pre ++ (h1 ++ (c ++ ((rest.map fun q => q.1 ++ q.2).flatten ++ (bh ++ tail)))),
            pre.length + h1.length + c.length⟩ =
          .error (.decodeError "Bytearray chunk too large") := by
        rw [show pre ++ (h1 ++ (c ++ ((rest.map fun q => q.1 ++ q.2).flatten ++ (bh ++ tail)))) =
            (pre ++ h1 ++ c) ++ ((rest.map fun q => q.1 ++ q.2).flatten ++ (bh ++ tail))
          from by simp,
          show pre.length + h1.length + c.length = (pre ++ h1 ++ c).length
            from by simp only [List.length_append]]
        exact hrec
      simp only [List.map_cons, List.flatten_cons]
      rw [show pre ++ ((((h1, c).1 ++ (h1, c).2) ++ (rest.map fun q => q.1 ++ q.2).flatten) ++
          (bh ++ tail)) =
        pre ++ (h1 ++ (c ++ ((rest.map fun q => q.1 ++ q.2).flatten ++ (bh ++ tail))))
        from by simp]
      simp only [decodeBytesChunks]
      rw [hpeek]
      dsimp only
      rw [if_neg (by omega)]
      rw [hhead]
      dsimp only
      rw [if_neg (by omega)]
      rw [hshift]
      dsimp only
      rw [hrec2]

/-- C6: on an indefinite byte-string input (marker `0x5F`), `decodeBytes`
accepts every chunk whose head declares a length of at most 64, concatenating
the chunk payloads until the `0xFF` terminator (first conjunct), and fails
with the `DecodeError` "Bytearray chunk too large" as soon as any chunk head
declares a length greater than 64 (second conjunct). -/
theorem decodeBytes_chunk_limit :
    (∀ (pairs : List (List Nat × List Nat)),
      (∀ p ∈ pairs, encodeDefHead 2 p.2.length = some p.1 ∧ p.2.length ≤ 64) →
      decodeBytes ⟨95 :: ((pairs.map fun p => p.1 ++ p.2).flatten ++ [255]), 0⟩ =
        .ok ((pairs.map fun p => p.2).flatten,
          ⟨95 :: ((pairs.map fun p => p.1 ++ p.2).flatten ++ [255]),
            (95 :: ((pairs.map fun p => p.1 ++ p.2).flatten ++ [255])).length⟩)) ∧
    (∀ (pairs : List (List Nat × List Nat)) (nbad : Nat) (bh tail : List Nat),
      (∀ p ∈ pairs, encodeDefHead 2 p.2.length = some p.1 ∧ p.2.length ≤ 64) →
      encodeDefHead 2 nbad = some bh →
      64 < nbad →
      decodeBytes ⟨95 :: ((pairs.map fun p => p.1 ++ p.2).flatten ++ (bh ++ tail)), 0⟩ =
        .error (.decodeError "Bytearray chunk too large")) := by
  have hfuelgen : ∀ (pairs : List (List Nat × List Nat)),
      (∀ p ∈ pairs, encodeDefHead 2 p.2.length = some p.1 ∧ p.2.length ≤ 64) →
      pairs.length ≤ (pairs.map fun p => p.1 ++ p.2).flatten.length := by
    intro pairs hp
    have h2 : ∀ it ∈ (pairs.map fun p => p.1 ++ p.2), it ≠ [] := by
      intro it hit
      rw [List.mem_map] at hit
      obtain ⟨q, hq, heq⟩ := hit
      obtain ⟨n0, t, hbt, _⟩ := encodeDefHead_shape (hp q hq).1
      rw [← heq, hbt]
      simp
    have := length_le_flatten h2
    simpa using this
  have hstart : ∀ (L : List Nat), isIndefBytes ⟨95 :: L, 0⟩ = .ok (true, ⟨95 :: L, 0⟩) := by
    intro L
    unfold isIndefBytes Stream.peekOne
    simp
  have hshift0 : ∀ (L : List Nat), Stream.shiftOne ⟨95 :: L, 0⟩ = .ok (95, ⟨95 :: L, 1⟩) := by
    intro L
    unfold Stream.shiftOne
    simp
  constructor
  · intro pairs hp
    have hfuel : pairs.length < (95 :: ((pairs.map fun p => p.1 ++ p.2).flatten ++ [255])).length + 1 := by
      have := hfuelgen pairs hp
      simp only [List.length_cons, List.length_append]
      omega
    have hchunks := decodeBytesChunks_spec pairs
      ((95 :: ((pairs.map fun p => p.1 ++ p.2).flatten ++ [255])).length + 1) [] [95] [] hp
      (by simpa using hfuel)
    have hchunks2 : decodeBytesChunks
        ((95 :: ((pairs.map fun p => p.1 ++ p.2).flatten ++ [255])).length + 1) []
        ⟨95 :: ((pairs.map fun p => p.1 ++ p.2).flatten ++ [255]), 1⟩ =
        .ok ((pairs.map fun p => p.2).flatten,
          ⟨95 :: ((pairs.map fun p => p.1 ++ p.2).flatten ++ [255]),
            1 + (pairs.map fun p => p.1 ++ p.2).flatten.length⟩) := by
      rw [show (95 : Nat) :: ((pairs.map fun p => p.1 ++ p.2).flatten ++ [255]) =
          [95] ++ ((pairs.map fun p => p.1 ++ p.2).flatten ++ (255 :: [])) from by simp,
        show (1 : Nat) = ([95] : List Nat).length from by simp]
      simpa using hchunks
    have hterm : Stream.shiftOne
        ⟨95 :: ((pairs.map fun p => p.1 ++ p.2).flatten ++ [255]),
          1 + (pairs.map fun p => p.1 ++ p.2).flatten.length⟩ =
        .ok (255,
          ⟨95 :: ((pairs.map fun p => p.1 ++ p.2).flatten ++ [255]),
            1 + (pairs.map fun p => p.1 ++ p.2).flatten.length + 1⟩) := by
      rw [show (95 : Nat) :: ((pairs.map fun p => p.1 ++ p.2).flatten ++ [255]) =
          (95 :: (pairs.map fun p => p.1 ++ p.2).flatten) ++ (255 :: []) from by simp,
        show (1 : Nat) + (pairs.map fun p => p.1 ++ p.2).flatten.length =
          (95 :: (pairs.map fun p => p.1 ++ p.2).flatten).length from by simp; omega]
      exact Stream.shiftOne_at (95 :: (pairs.map fun p => p.1 ++ p.2).flatten) [] 255
    unfold decodeBytes
    rw [hstart]
    dsimp only
    rw [if_pos rfl]
    rw [hshift0]
    dsimp only
    rw [hchunks2]
    dsimp only
    rw [hterm]
    dsimp only
    rw [if_neg (by simp)]
    simp
    omega
  · intro pairs nbad bh tail hp hencb hbig
    have hfuel : pairs.length <
        (95 :: ((pairs.map fun p => p.1 ++ p.2).flatten ++ (bh ++ tail))).length + 1 := by
      have := hfuelgen pairs hp
      simp only [List.length_cons, List.length_append]
      omega
    have hchunks := decodeBytesChunks_err pairs
      ((95 :: ((pairs.map fun p => p.1 ++ p.2).flatten ++ (bh ++ tail))).length + 1) [] [95]
      tail nbad bh hp (by simpa using hfuel) hencb hbig
    have hchunks2 : decodeBytesChunks
        ((95 :: ((pairs.map fun p => p.1 ++ p.2).flatten ++ (bh ++ tail))).length + 1) []
        ⟨95 :: ((pairs.map fun p => p.1 ++ p.2).flatten ++ (bh ++ tail)), 1⟩ =
        .error (.decodeError "Bytearray chunk too large") := by
      rw [show (95 : Nat) :: ((pairs.map fun p => p.1 ++ p.2).flatten ++ (bh ++ tail)) =
          [95] ++ ((pairs.map fun p => p.1 ++ p.2).flatten ++ (bh ++ tail)) from by simp,
        show (1 : Nat) = ([95] : List Nat).length from by simp]
      exact hchunks
    unfold decodeBytes
    rw [hstart]
    dsimp only
    rw [if_pos rfl]
    rw [hshift0]
    dsimp only
    rw [hchunks2]

/-- Witness for C6: one 1-byte chunk (head `0x41`) is accepted and returned;
a chunk head `0x58 0x41` declaring 65 bytes is rejected. -/
theorem decodeBytes_chunk_limit_witness :
    decodeBytes ⟨[95, 65, 171, 255], 0⟩ = .ok ([171], ⟨[95, 65, 171, 255], 4⟩) ∧
    decodeBytes ⟨[95, 88, 65], 0⟩ = .error (.decodeError "Bytearray chunk too large") := by
  constructor
  · have := decodeBytes_chunk_limit.1 [([65], [171])] (by decide)
    simpa using this
  · have := decodeBytes_chunk_limit.2 [] 65 [88, 65] [] (by decide) (by decide) (by decide)
    simpa using this

/-- Completion mode of the lazy list decoder: indefinite (terminator byte) or
definite with a declared count. -/
inductive LazyMode where
  | indef
  | definite (n : Nat)
deriving Repr, DecidableEq

/-- State captured by the closure returned by `decodeListLazy`: the shared
stream, the item counter `i`, the completion flag `done` and the mode (the
source captures these as mutable locals plus the `checkDone` closure). -/
structure LazyListState where
  stream : Stream
  i : Nat
  done : Bool
  mode : LazyMode
deriving Repr, DecidableEq

/-- The `checkDone` closures of `decodeListLazy`: for the indefinite form,
peek for the `0xFF` terminator and consume it; for the definite form, compare
the counter against the declared count. -/
def lazyCheckDone (st : LazyListState) : Except DErr LazyListState :=
  match st.mode with
  | .indef =>
    match st.stream.peekOne with
    | .error e => .error e
    | .ok (b, s') =>
      if b = 255 then
        match s'.shiftOne with
        | .error e => .error e
        | .ok (_, s₁) => .ok { st with stream := s₁, done := true }
      else .ok { st with stream := s' }
  | .definite n =>
    if n ≤ st.i then .ok { st with done := true } else .ok st

/-- `decodeListLazy` from `Cbor.ts`: consumes the list head and returns the
decoding state for the one-item-per-call closure. -/
def decodeListLazy (s : Stream) : Except DErr LazyListState :=
  match isIndefList s with
  | .error e => .error e
  | .ok (indef, s') =>
    if indef then
      match s'.shiftOne with
      | .error e => .error e
      | .ok (_, s₀) => lazyCheckDone ⟨s₀, 0, false, .indef⟩
    else
      match decodeDefHead s' with
      | .error e => .error e
      | .ok ((m, n), s₀) =>
        if m ≠ 4 then .error (.decodeError "Unexpected header major type")
        else lazyCheckDone ⟨s₀, 0, false, .definite n⟩

/-- The `decodeItem` closure returned by `decodeListLazy`: fails with
"end-of-list" once `done` is set, otherwise decodes one item and re-checks
completion. -/
def lazyDecodeItem {T : Type} (itemDecoder : IndexedDecoder T)
    (st : LazyListState) : Except DErr (T × LazyListState) :=
  if st.done then .error (.decodeError "end-of-list")
  else
    match itemDecoder st.stream st.i with
    | .error e => .error e
    | .ok (res, s') =>
      match lazyCheckDone { st with stream := s', i := st.i + 1 } with
      | .error e => .error e
      | .ok st' => .ok (res, st')

/-- Repeated invocation of the lazy closure (`k` calls in sequence). -/
def runLazyList {T : Type} (d : IndexedDecoder T) :
    Nat → LazyListState → Except DErr (List T × LazyListState)
  | 0, st => .ok ([], st)
  | k + 1, st =>
    match lazyDecodeItem d st with
    | .error e => .error e
    | .ok (v, st') =>
      match runLazyList d k st' with
      | .error e => .error e
      | .ok (vs, st'') => .ok (v :: vs, st'')

theorem peekOne_ok_elim {s s₂ : Stream} {b : Nat}
    (h : s.peekOne = .ok (b, s₂)) : s.bytes[s.pos]? = some b ∧ s₂ = s := by
  unfold Stream.peekOne at h
  cases hg : s.bytes[s.pos]? with
  | none => rw [hg] at h; exact Except.noConfusion h
  | some b2 =>
    rw [hg] at h
    injection h with h
    injection h with h1 h2
    subst h1
    exact ⟨rfl, h2.symm⟩

/-- The state returned by `decodeListLazy` for a definite list with count `n`
starts at counter 0 with `done` set exactly when `n = 0`. -/
theorem decodeListLazy_def_start {n : Nat} {s : Stream} {st0 : LazyListState}
    (h : decodeListLazy s = .ok st0) (hm : st0.mode = .definite n) :
    st0.i = 0 ∧ st0.done = decide (n ≤ 0) := by
  unfold decodeListLazy isIndefList at h
  cases hp : s.peekOne with
  | error e =>
    rw [hp] at h
    exact Except.noConfusion h
  | ok bs' =>
    obtain ⟨b, s'⟩ := bs'
    rw [hp] at h
    dsimp only at h
    by_cases hb : b = 4 * 32 + 31
    · -- indefinite branch can only return mode `.indef`
      rw [if_pos (by simp [hb])] at h
      exfalso
      cases hs : s'.shiftOne with
      | error e => rw [hs] at h; exact Except.noConfusion h
      | ok p =>
        obtain ⟨b2, s₀⟩ := p
        rw [hs] at h
        dsimp only at h
        unfold lazyCheckDone at h
        dsimp only at h
        cases hp2 : s₀.peekOne with
        | error e => rw [hp2] at h; exact Except.noConfusion h
        | ok p2 =>
          obtain ⟨b3, s₂⟩ := p2
          rw [hp2] at h
          dsimp only at h
          by_cases hb3 : b3 = 255
          · rw [if_pos hb3] at h
            cases hs2 : s₂.shiftOne with
            | error e => rw [hs2] at h; exact Except.noConfusion h
            | ok p3 =>
              rw [hs2] at h
              dsimp only at h
              injection h with h
              rw [← h] at hm
              exact LazyMode.noConfusion hm
          · rw [if_neg hb3] at h
            injection h with h
            rw [← h] at hm
            exact LazyMode.noConfusion hm
    · rw [if_neg (by simp [hb])] at h
      cases hh : decodeDefHead s' with
      | error e => rw [hh] at h; exact Except.noConfusion h
      | ok p =>
        obtain ⟨⟨m, n'⟩, s₀⟩ := p
        rw [hh] at h
        dsimp only at h
        by_cases hm4 : m ≠ 4
        · rw [if_pos hm4] at h
          exact Except.noConfusion h
        · rw [if_neg hm4] at h
          unfold lazyCheckDone at h
          dsimp only at h
          by_cases hn : n' ≤ 0
          · rw [if_pos hn] at h
            injection h with h
            rw [← h] at hm ⊢
            injection hm with hm
            subst hm
            simp [hn]
          · rw [if_neg hn] at h
            injection h with h
            rw [← h] at hm ⊢
            injection hm with hm
            subst hm
            simp
            omega

/-- Each successful lazy call in definite mode preserves the mode, keeps
`done` synchronised with `count ≤ i`, and advances the counter. -/
theorem runLazyList_def_inv {T : Type} (d : IndexedDecoder T) (n : Nat) :
    ∀ (k : Nat) (st st1 : LazyListState) (vs : List T),
    st.mode = .definite n → st.done = decide (n ≤ st.i) →
    runLazyList d k st = .ok (vs, st1) →
    st1.mode = .definite n ∧ st1.done = decide (n ≤ st1.i) ∧ st1.i = st.i + k := by
  intro k
  induction k with
  | zero =>
    intro st st1 vs hmode hdone h
    unfold runLazyList at h
    injection h with h
    injection h with h1 h2
    subst h2
    exact ⟨hmode, hdone, rfl⟩
  | succ k ih =>
    intro st st1 vs hmode hdone h
    unfold runLazyList at h
    unfold lazyDecodeItem at h
    by_cases hd : st.done = true
    · rw [if_pos hd] at h
      exact Except.noConfusion h
    · rw [if_neg hd] at h
      cases hi : d st.stream st.i with
      | error e => rw [hi] at h; exact Except.noConfusion h
      | ok p =>
        obtain ⟨v, s'⟩ := p
        rw [hi] at h
        dsimp only at h
        rw [show lazyCheckDone { st with stream := s', i := st.i + 1 } =
            (if n ≤ st.i + 1 then
              .ok { st with stream := s', i := st.i + 1, done := true }
            else .ok { st with stream := s', i := st.i + 1 }) from by
          unfold lazyCheckDone
          rw [hmode]] at h
        by_cases hn : n ≤ st.i + 1
        · rw [if_pos hn] at h
          dsimp only at h
          cases hr : runLazyList d k { st with stream := s', i := st.i + 1, done := true } with
          | error e => rw [hr] at h; exact Except.noConfusion h
          | ok p2 =>
            obtain ⟨vs2, st2⟩ := p2
            rw [hr] at h
            dsimp only at h
            injection h with h
            injection h with h1 h2
            subst h2
            have := ih { st with stream := s', i := st.i + 1, done := true } st2 vs2
              hmode (by simp [hn]) hr
            refine ⟨this.1, this.2.1, ?_⟩
            have h3 := this.2.2
            simp at h3
            omega
        · rw [if_neg hn] at h
          dsimp only at h
          cases hr : runLazyList d k { st with stream := s', i := st.i + 1 } with
          | error e => rw [hr] at h; exact Except.noConfusion h
          | ok p2 =>
            obtain ⟨vs2, st2⟩ := p2
            rw [hr] at h
            dsimp only at h
            injection h with h
            injection h with h1 h2
            subst h2
            have := ih { st with stream := s', i := st.i + 1 } st2 vs2
              hmode
              (by
                show st.done = decide (n ≤ st.i + 1)
                rw [hdone]
                simp only [decide_eq_decide]
                omega) hr
            refine ⟨this.1, this.2.1, ?_⟩
            have h3 := this.2.2
            simp at h3
            omega

/-- C7: after the closure returned by `decodeListLazy` has decoded all items
(having reached the definite declared count, or having consumed the
indefinite `0xFF` terminator, both recorded in the internal `done` flag),
every further invocation fails with the "end-of-list" `DecodeError` — it
never silently returns a default value.  Conjuncts: (1) a call on an
exhausted state fails with "end-of-list" for every item decoder; (2) for a
definite list with count `n`, running the closure `n` times from the
`decodeListLazy` start state leaves the state exhausted; (3) in indefinite
mode, the call that leaves the cursor on the `0xFF` terminator consumes it
and marks the state exhausted. -/
theorem decodeListLazy_end_of_list {T : Type} :
    (∀ (d : IndexedDecoder T) (st : LazyListState), st.done = true →
      lazyDecodeItem d st = .error (.decodeError "end-of-list")) ∧
    (∀ (d : IndexedDecoder T) (n : Nat) (s : Stream) (st0 st1 : LazyListState)
      (vs : List T),
      decodeListLazy s = .ok st0 → st0.mode = .definite n →
      runLazyList d n st0 = .ok (vs, st1) → st1.done = true) ∧
    (∀ (d : IndexedDecoder T) (st : LazyListState) (v : T) (s' : Stream),
      st.mode = .indef → st.done = false →
      d st.stream st.i = .ok (v, s') → s'.peekOne = .ok (255, s') →
      lazyDecodeItem d st =
        .ok (v, ⟨⟨s'.bytes, s'.pos + 1⟩, st.i + 1, true, st.mode⟩)) := by
  refine ⟨?_, ?_, ?_⟩
  · intro d st hdone
    unfold lazyDecodeItem
    rw [if_pos hdone]
  · intro d n s st0 st1 vs h0 hmode hrun
    obtain ⟨hi0, hdone0⟩ := decodeListLazy_def_start h0 hmode
    have hinv := runLazyList_def_inv d n n st0 st1 vs hmode
      (by rw [hdone0, hi0]) hrun
    rw [hinv.2.1, hinv.2.2, hi0]
    simp
  · intro d st v s' hmode hdone hitem hpeek
    obtain ⟨hbyte, _⟩ := peekOne_ok_elim hpeek
    unfold lazyDecodeItem
    rw [if_neg (by simp [hdone]), hitem]
    dsimp only
    rw [show lazyCheckDone { st with stream := s', i := st.i + 1 } =
        .ok ⟨⟨s'.bytes, s'.pos + 1⟩, st.i + 1, true, st.mode⟩ from by
      unfold lazyCheckDone
      rw [hmode]
      dsimp only
      rw [hpeek]
      dsimp only
      rw [if_pos rfl]
      unfold Stream.shiftOne
      rw [hbyte]]

/-- Witness for C7: a definite 2-item boolean list; after both items are
decoded the state is exhausted and a third call fails with "end-of-list". -/
theorem decodeListLazy_end_of_list_witness :
    decodeListLazy ⟨[130, 245, 244], 0⟩ =
      .ok ⟨⟨[130, 245, 244], 1⟩, 0, false, .definite 2⟩ ∧
    runLazyList (fun s _ => decodeBool s) 2 ⟨⟨[130, 245, 244], 1⟩, 0, false, .definite 2⟩ =
      .ok ([true, false], ⟨⟨[130, 245, 244], 3⟩, 2, true, .definite 2⟩) ∧
    lazyDecodeItem (fun s _ => decodeBool s)
        ⟨⟨[130, 245, 244], 3⟩, 2, true, .definite 2⟩ =
      .error (.decodeError "end-of-list") :=
  ⟨rfl, rfl,
    decodeListLazy_end_of_list.1 (fun s _ => decodeBool s)
      ⟨⟨[130, 245, 244], 3⟩, 2, true, .definite 2⟩ rfl⟩

/-- The `peekOne().pipe(Effect.map(f))` pattern shared by the peek-based
probes of `Cbor.ts`. -/
def peekMap {α : Type} (f : Nat → α) (s : Stream) : Except DErr (α × Stream) :=
  match s.peekOne with
  | .error e => .error e
  | .ok (b, s1) => .ok (f b, s1)

/-- `peekMajorType` from `Cbor.ts`: the major type of the next head byte,
without advancing. -/
def peekMajorType (s : Stream) : Except DErr (Nat × Stream) :=
  peekMap (fun head => head / 32) s

/-- `peekMajorAndSimpleMinorType` from `Cbor.ts`. -/
def peekMajorAndSimpleMinorType (s : Stream) :
    Except DErr ((Nat × Nat) × Stream) :=
  peekMap decodeFirstHeadByte s

/-- The `peekMajorType(bytes).pipe(Effect.map((m) => m == mt))` pattern shared
by `isBytes` / `isList` / `isMap` / `isString` / `isTag`. -/
def majorIs (mt : Nat) (s : Stream) : Except DErr (Bool × Stream) :=
  match peekMajorType s with
  | .error e => .error e
  | .ok (m, s1) => .ok (decide (m = mt), s1)

/-- `isBool` from `Cbor.ts`: peeks for the `FALSE_BYTE` / `TRUE_BYTE` head. -/
def isBool (s : Stream) : Except DErr (Bool × Stream) :=
  peekMap (fun head => decide (head = 244) || decide (head = 245)) s

/-- `isBytes` from `Cbor.ts`: next major type is 2. -/
def isBytes (s : Stream) : Except DErr (Bool × Stream) := majorIs 2 s

/-- `isDefBytes` from `Cbor.ts`: major type 2 and (short-circuit `&&`) head
byte not the indefinite marker. -/
def isDefBytes (s : Stream) : Except DErr (Bool × Stream) :=
  match peekMajorType s with
  | .error e => .error e
  | .ok (m, s1) =>
    if m = 2 then
      match s1.peekOne with
      | .error e => .error e
      | .ok (b, s2) => .ok (decide (b ≠ 2 * 32 + 31), s2)
    else .ok (false, s1)

/-- `isConstr` from `Cbor.ts`: decodes a definite head on a `copy()` of the
stream (so the caller's cursor is untouched), answers whether it is a
constructor tag, and maps `DecodeError` to `false` (only `EndOfStreamError`
propagates). -/
def isConstr (s : Stream) : Except DErr (Bool × Stream) :=
  match decodeDefHead s.copy with
  | .ok ((m, n), _) =>
    .ok ((if m = 6 then
        decide (n = 102) || (decide (121 ≤ n) && decide (n ≤ 127)) ||
          (decide (1280 ≤ n) && decide (n ≤ 1400))
      else false), s)
  | .error (.decodeError _) => .ok (false, s)
  | .error .endOfStream => .error .endOfStream

/-- `isFloat` from `Cbor.ts`: float16/32/64 head byte. -/
def isFloat (s : Stream) : Except DErr (Bool × Stream) :=
  peekMap (fun head =>
    decide (head = 249) || decide (head = 250) || decide (head = 251)) s

/-- `isFloat16` from `Cbor.ts`. -/
def isFloat16 (s : Stream) : Except DErr (Bool × Stream) :=
  peekMap (fun head => decide (head = 249)) s

/-- `isFloat32` from `Cbor.ts`. -/
def isFloat32 (s : Stream) : Except DErr (Bool × Stream) :=
  peekMap (fun head => decide (head = 250)) s

/-- `isFloat64` from `Cbor.ts`. -/
def isFloat64 (s : Stream) : Except DErr (Bool × Stream) :=
  peekMap (fun head => decide (head = 251)) s

/-- `isInt` from `Cbor.ts`: major type 0/1, or 6 with simple minor 2/3. -/
def isInt (s : Stream) : Except DErr (Bool × Stream) :=
  match peekMajorAndSimpleMinorType s with
  | .error e => .error e
  | .ok ((m, n0), s1) =>
    .ok ((if m = 0 ∨ m = 1 then true
      else if m = 6 then decide (n0 = 2) || decide (n0 = 3)
      else false), s1)

/-- `isList` from `Cbor.ts`: next major type is 4. -/
def isList (s : Stream) : Except DErr (Bool × Stream) := majorIs 4 s

/-- `isDefList` from `Cbor.ts`: major type 4 and (short-circuit `&&`) head
byte not the indefinite marker. -/
def isDefList (s : Stream) : Except DErr (Bool × Stream) :=
  match peekMajorType s with
  | .error e => .error e
  | .ok (m, s1) =>
    if m = 4 then
      match s1.peekOne with
      | .error e => .error e
      | .ok (b, s2) => .ok (decide (b ≠ 4 * 32 + 31), s2)
    else .ok (false, s1)

/-- `isMap` from `Cbor.ts`: next major type is 5. -/
def isMap (s : Stream) : Except DErr (Bool × Stream) := majorIs 5 s

/-- `isNull` from `Cbor.ts`: peeks for the `NULL_BYTE` (246). -/
def isNull (s : Stream) : Except DErr (Bool × Stream) :=
  peekMap (fun head => decide (head = 246)) s

/-- `isObject` from `Cbor.ts`: alias of `isMap`. -/
def isObject (s : Stream) : Except DErr (Bool × Stream) := isMap s

/-- `decodeTag` from `Cbor.ts`: a definite head that must carry major type 6. -/
def decodeTag (s : Stream) : Except DErr (Nat × Stream) :=
  match decodeDefHead s with
  | .error e => .error e
  | .ok ((m, n), s1) =>
    if m ≠ 6 then .error (.decodeError "unexpected major type for tag")
    else .ok (n, s1)

/-- `peekTag` from `Cbor.ts`: `decodeTag` on a `copy()` of the stream, mapping
`DecodeError` to `undefined` (modelled as `none`). -/
def peekTag (s : Stream) : Except DErr (Option Nat × Stream) :=
  match decodeTag s.copy with
  | .ok (t, _) => .ok (some t, s)
  | .error (.decodeError _) => .ok (none, s)
  | .error .endOfStream => .error .endOfStream

/-- `isSet` from `Cbor.ts`: the peeked tag equals `SET_TAG` (258). -/
def isSet (s : Stream) : Except DErr (Bool × Stream) :=
  match peekTag s with
  | .error e => .error e
  | .ok (t, s1) => .ok (decide (t = some 258), s1)

/-- `isString` from `Cbor.ts`: next major type is 3. -/
def isString (s : Stream) : Except DErr (Bool × Stream) := majorIs 3 s

/-- `isTag` from `Cbor.ts`: next major type is 6. -/
def isTag (s : Stream) : Except DErr (Bool × Stream) := majorIs 6 s

/-- `isTuple` from `Cbor.ts`: alias of `isList`. -/
def isTuple (s : Stream) : Except DErr (Bool × Stream) := isList s

theorem peekMap_pos {α : Type} (f : Nat → α) {s s2 : Stream} {r : α}
    (h : peekMap f s = .ok (r, s2)) : s2 = s := by
  unfold peekMap at h
  cases hp : s.peekOne with
  | error e => rw [hp] at h; exact Except.noConfusion h
  | ok p =>
    obtain ⟨b, s1⟩ := p
    rw [hp] at h
    dsimp only at h
    injection h with h
    injection h with h1 h2
    rw [← h2, (peekOne_ok_elim hp).2]

theorem peekMajorType_pos {s s2 : Stream} {m : Nat}
    (h : peekMajorType s = .ok (m, s2)) : s2 = s := by
  unfold peekMajorType at h
  exact peekMap_pos _ h

theorem majorIs_pos (mt : Nat) {s s2 : Stream} {r : Bool}
    (h : majorIs mt s = .ok (r, s2)) : s2 = s := by
  unfold majorIs at h
  cases hp : peekMajorType s with
  | error e => rw [hp] at h; exact Except.noConfusion h
  | ok p =>
    obtain ⟨m, s1⟩ := p
    rw [hp] at h
    dsimp only at h
    injection h with h
    injection h with h1 h2
    rw [← h2, peekMajorType_pos hp]

theorem peekTag_pos {s s2 : Stream} {t : Option Nat}
    (h : peekTag s = .ok (t, s2)) : s2 = s := by
  unfold peekTag at h
  cases hd : decodeTag s.copy with
  | ok p =>
    obtain ⟨v, s3⟩ := p
    rw [hd] at h
    dsimp only at h
    injection h with h
    injection h with h1 h2
    exact h2.symm
  | error e =>
    cases e with
    | decodeError msg =>
      rw [hd] at h
      dsimp only at h
      injection h with h
      injection h with h1 h2
      exact h2.symm
    | endOfStream =>
      rw [hd] at h
      exact Except.noConfusion h

theorem isDefBytes_pos {s s2 : Stream} {r : Bool}
    (h : isDefBytes s = .ok (r, s2)) : s2 = s := by
  unfold isDefBytes at h
  cases hp : peekMajorType s with
  | error e => rw [hp] at h; exact Except.noConfusion h
  | ok p =>
    obtain ⟨m, s1⟩ := p
    rw [hp] at h
    dsimp only at h
    by_cases hm : m = 2
    · rw [if_pos hm] at h
      cases hq : s1.peekOne with
      | error e => rw [hq] at h; exact Except.noConfusion h
      | ok q =>
        obtain ⟨b, s3⟩ := q
        rw [hq] at h
        dsimp only at h
        injection h with h
        injection h with h1 h2
        rw [← h2, (peekOne_ok_elim hq).2, peekMajorType_pos hp]
    · rw [if_neg hm] at h
      injection h with h
      injection h with h1 h2
      rw [← h2, peekMajorType_pos hp]

theorem isDefList_pos {s s2 : Stream} {r : Bool}
    (h : isDefList s = .ok (r, s2)) : s2 = s := by
  unfold isDefList at h
  cases hp : peekMajorType s with
  | error e => rw [hp] at h; exact Except.noConfusion h
  | ok p =>
    obtain ⟨m, s1⟩ := p
    rw [hp] at h
    dsimp only at h
    by_cases hm : m = 4
    · rw [if_pos hm] at h
      cases hq : s1.peekOne with
      | error e => rw [hq] at h; exact Except.noConfusion h
      | ok q =>
        obtain ⟨b, s3⟩ := q
        rw [hq] at h
        dsimp only at h
        injection h with h
        injection h with h1 h2
        rw [← h2, (peekOne_ok_elim hq).2, peekMajorType_pos hp]
    · rw [if_neg hm] at h
      injection h with h
      injection h with h1 h2
      rw [← h2, peekMajorType_pos hp]

/-- C9: every probe (`isBool`, `isBytes`, `isDefBytes`, `isIndefBytes`,
`isConstr`, `isFloat`, `isFloat16`, `isFloat32`, `isFloat64`, `isInt`,
`isList`, `isDefList`, `isIndefList`, `isMap`, `isNull`, `isObject`, `isSet`,
`isString`, `isTag`, `isTuple`) leaves the stream position unchanged whenever
it completes, whether it answers `true` or `false`: the probes only peek, or
decode on a `copy()` of the stream. -/
theorem probes_preserve_pos :
    (∀ (s s2 : Stream) (r : Bool), isBool s = .ok (r, s2) → s2.pos = s.pos) ∧
    (∀ (s s2 : Stream) (r : Bool), isBytes s = .ok (r, s2) → s2.pos = s.pos) ∧
    (∀ (s s2 : Stream) (r : Bool), isDefBytes s = .ok (r, s2) → s2.pos = s.pos) ∧
    (∀ (s s2 : Stream) (r : Bool), isIndefBytes s = .ok (r, s2) → s2.pos = s.pos) ∧
    (∀ (s s2 : Stream) (r : Bool), isConstr s = .ok (r, s2) → s2.pos = s.pos) ∧
    (∀ (s s2 : Stream) (r : Bool), isFloat s = .ok (r, s2) → s2.pos = s.pos) ∧
    (∀ (s s2 : Stream) (r : Bool), isFloat16 s = .ok (r, s2) → s2.pos = s.pos) ∧
    (∀ (s s2 : Stream) (r : Bool), isFloat32 s = .ok (r, s2) → s2.pos = s.pos) ∧
    (∀ (s s2 : Stream) (r : Bool), isFloat64 s = .ok (r, s2) → s2.pos = s.pos) ∧
    (∀ (s s2 : Stream) (r : Bool), isInt s = .ok (r, s2) → s2.pos = s.pos) ∧
    (∀ (s s2 : Stream) (r : Bool), isList s = .ok (r, s2) → s2.pos = s.pos) ∧
    (∀ (s s2 : Stream) (r : Bool), isDefList s = .ok (r, s2) → s2.pos = s.pos) ∧
    (∀ (s s2 : Stream) (r : Bool), isIndefList s = .ok (r, s2) → s2.pos = s.pos) ∧
    (∀ (s s2 : Stream) (r : Bool), isMap s = .ok (r, s2) → s2.pos = s.pos) ∧
    (∀ (s s2 : Stream) (r : Bool), isNull s = .ok (r, s2) → s2.pos = s.pos) ∧
    (∀ (s s2 : Stream) (r : Bool), isObject s = .ok (r, s2) → s2.pos = s.pos) ∧
    (∀ (s s2 : Stream) (r : Bool), isSet s = .ok (r, s2) → s2.pos = s.pos) ∧
    (∀ (s s2 : Stream) (r : Bool), isString s = .ok (r, s2) → s2.pos = s.pos) ∧
    (∀ (s s2 : Stream) (r : Bool), isTag s = .ok (r, s2) → s2.pos = s.pos) ∧
    (∀ (s s2 : Stream) (r : Bool), isTuple s = .ok (r, s2) → s2.pos = s.pos) := by
  have hpk : ∀ {α : Type} (f : Nat → α) (s s2 : Stream) (r : α),
      peekMap f s = .ok (r, s2) → s2.pos = s.pos := by
    intro α f s s2 r h
    rw [peekMap_pos f h]
  have hmaj : ∀ (mt : Nat) (s s2 : Stream) (r : Bool),
      majorIs mt s = .ok (r, s2) → s2.pos = s.pos := by
    intro mt s s2 r h
    rw [majorIs_pos mt h]
  have hindef : ∀ (marker : Nat) (s s2 : Stream) (r : Bool),
      (match s.peekOne with
        | .error e => .error e
        | .ok (b, s1) => .ok (decide (b = marker), s1)) = Except.ok (r, s2) →
      s2.pos = s.pos := by
    intro marker s s2 r h
    cases hp : s.peekOne with
    | error e => rw [hp] at h; exact Except.noConfusion h
    | ok p =>
      obtain ⟨b, s1⟩ := p
      rw [hp] at h
      dsimp only at h
      injection h with h
      injection h with h1 h2
      rw [← h2, (peekOne_ok_elim hp).2]
  have hconstr : ∀ (s s2 : Stream) (r : Bool),
      isConstr s = .ok (r, s2) → s2.pos = s.pos := by
    intro s s2 r h
    unfold isConstr at h
    cases hd : decodeDefHead s.copy with
    | ok p =>
      obtain ⟨⟨m, n⟩, s3⟩ := p
      rw [hd] at h
      dsimp only at h
      injection h with h
      injection h with h1 h2
      rw [← h2]
    | error e =>
      cases e with
      | decodeError msg =>
        rw [hd] at h
        dsimp only at h
        injection h with h
        injection h with h1 h2
        rw [← h2]
      | endOfStream =>
        rw [hd] at h
        exact Except.noConfusion h
  have hint : ∀ (s s2 : Stream) (r : Bool),
      isInt s = .ok (r, s2) → s2.pos = s.pos := by
    intro s s2 r h
    unfold isInt at h
    cases hp : peekMajorAndSimpleMinorType s with
    | error e => rw [hp] at h; exact Except.noConfusion h
    | ok p =>
      obtain ⟨⟨m, n0⟩, s1⟩ := p
      rw [hp] at h
      dsimp only at h
      injection h with h
      injection h with h1 h2
      have hs1 : s1 = s := by
        unfold peekMajorAndSimpleMinorType at hp
        exact peekMap_pos _ hp
      rw [← h2, hs1]
  have hset : ∀ (s s2 : Stream) (r : Bool),
      isSet s = .ok (r, s2) → s2.pos = s.pos := by
    intro s s2 r h
    unfold isSet at h
    cases hp : peekTag s with
    | error e => rw [hp] at h; exact Except.noConfusion h
    | ok p =>
      obtain ⟨t, s1⟩ := p
      rw [hp] at h
      dsimp only at h
      injection h with h
      injection h with h1 h2
      rw [← h2, peekTag_pos hp]
  refine ⟨?_, ?_, ?_, ?_, hconstr, ?_, ?_, ?_, ?_, hint, ?_, ?_, ?_, ?_, ?_,
    ?_, hset, ?_, ?_, ?_⟩
  · intro s s2 r h
    unfold isBool at h
    exact hpk _ s s2 r h
  · intro s s2 r h
    unfold isBytes at h
    exact hmaj 2 s s2 r h
  · intro s s2 r h
    rw [isDefBytes_pos h]
  · intro s s2 r h
    unfold isIndefBytes at h
    exact hindef (2 * 32 + 31) s s2 r h
  · intro s s2 r h
    unfold isFloat at h
    exact hpk _ s s2 r h
  · intro s s2 r h
    unfold isFloat16 at h
    exact hpk _ s s2 r h
  · intro s s2 r h
    unfold isFloat32 at h
    exact hpk _ s s2 r h
  · intro s s2 r h
    unfold isFloat64 at h
    exact hpk _ s s2 r h
  · intro s s2 r h
    unfold isList at h
    exact hmaj 4 s s2 r h
  · intro s s2 r h
    rw [isDefList_pos h]
  · intro s s2 r h
    unfold isIndefList at h
    exact hindef (4 * 32 + 31) s s2 r h
  · intro s s2 r h
    unfold isMap at h
    exact hmaj 5 s s2 r h
  · intro s s2 r h
    unfold isNull at h
    exact hpk _ s s2 r h
  · intro s s2 r h
    unfold isObject isMap at h
    exact hmaj 5 s s2 r h
  · intro s s2 r h
    unfold isString at h
    exact hmaj 3 s s2 r h
  · intro s s2 r h
    unfold isTag at h
    exact hmaj 6 s s2 r h
  · intro s s2 r h
    unfold isTuple isList at h
    exact hmaj 4 s s2 r h

/-- Witness for C9: a `true` probe (`isBool` on a true-boolean head) and a
`false` one (`isConstr` on an integer head) both leave the position at 0. -/
theorem probes_preserve_pos_witness :
    isBool ⟨[245], 0⟩ = .ok (true, ⟨[245], 0⟩) ∧
    isConstr ⟨[24, 5], 0⟩ = .ok (false, ⟨[24, 5], 0⟩) ∧
    (0 : Nat) = 0 ∧ (0 : Nat) = 0 :=
  ⟨rfl, rfl,
    probes_preserve_pos.1 ⟨[245], 0⟩ ⟨[245], 0⟩ true rfl,
    probes_preserve_pos.2.2.2.2.1 ⟨[24, 5], 0⟩ ⟨[24, 5], 0⟩ false rfl⟩

/-- C5 (amended): when `decodeDefHead` reads an initial byte whose low 5 bits
equal 31 (the indefinite-length marker), it FAILS with a `DecodeError` for
every major type — it never signals indefinite length to its caller.  For
major types 2/3/4/5/7 the error is the specific "expected def instead of
indef" message, for major types 0/1/6 it is "Bad CBOR header".  Indefinite
length is instead detected by the separate probes (`isIndefBytes`,
`isIndefList`), which do report `true` on the marker without consuming it
(final conjuncts). -/
theorem decodeDefHead_indef_marker (m : Nat) (hm : m ≤ 7) (pre post : List Nat) :
    (∃ msg, decodeDefHead ⟨pre ++ (32 * m + 31) :: post, pre.length⟩ =
      .error (.decodeError msg)) ∧
    ((m = 2 ∨ m = 3 ∨ m = 4 ∨ m = 5 ∨ m = 7) → ∀ n0 : Nat, n0 = 31 →
      decodeDefHead ⟨pre ++ (32 * m + 31) :: post, pre.length⟩ =
        .error (.decodeError
          s!"Unexpected header m={m} n0={n0} (expected def instead of indef)")) ∧
    ((m = 0 ∨ m = 1 ∨ m = 6) →
      decodeDefHead ⟨pre ++ (32 * m + 31) :: post, pre.length⟩ =
        .error (.decodeError "Bad CBOR header")) ∧
    isIndefBytes ⟨pre ++ (2 * 32 + 31) :: post, pre.length⟩ =
      .ok (true, ⟨pre ++ (2 * 32 + 31) :: post, pre.length⟩) ∧
    isIndefList ⟨pre ++ (4 * 32 + 31) :: post, pre.length⟩ =
      .ok (true, ⟨pre ++ (4 * 32 + 31) :: post, pre.length⟩) := by
  have hdiv : (32 * m + 31) / 32 = m := by omega
  have hmod : (32 * m + 31) % 32 = 31 := by omega
  have hcore : ∀ n1 : Nat, n1 = 31 →
      decodeDefHead ⟨pre ++ (32 * m + 31) :: post, pre.length⟩ =
        (if (m = 2 ∨ m = 3 ∨ m = 4 ∨ m = 5 ∨ m = 7) ∧ n1 = 31 then
          .error (.decodeError
            s!"Unexpected header m={m} n0={n1} (expected def instead of indef)")
        else .error (.decodeError "Bad CBOR header")) := by
    intro n1 h31
    subst h31
    unfold decodeDefHead
    rw [Stream.isAtEnd_at]
    simp only [Bool.false_eq_true, if_false]
    rw [Stream.shiftOne_at]
    simp only [decodeFirstHeadByte, hdiv, hmod]
    rw [if_neg (by omega), if_neg (by omega), if_neg (by omega), if_neg (by omega),
      if_neg (by omega)]
  refine ⟨?_, ?_, ?_, ?_, ?_⟩
  · by_cases hc : m = 2 ∨ m = 3 ∨ m = 4 ∨ m = 5 ∨ m = 7
    · exact ⟨_, by rw [hcore 31 rfl, if_pos ⟨hc, rfl⟩]⟩
    · exact ⟨_, by rw [hcore 31 rfl, if_neg (fun h => hc h.1)]⟩
  · intro hc n0 h31
    subst h31
    rw [hcore 31 rfl, if_pos ⟨hc, rfl⟩]
  · intro hc
    have hnc : ¬ (m = 2 ∨ m = 3 ∨ m = 4 ∨ m = 5 ∨ m = 7) := by
      rcases hc with h | h | h <;> subst h <;> decide
    rw [hcore 31 rfl, if_neg (fun h => hnc h.1)]
  · unfold isIndefBytes
    rw [Stream.peekOne_at]
    simp
  · unfold isIndefList
    rw [Stream.peekOne_at]
    simp

/-- C5 (counterexample to the claimed behaviour): on the indefinite
byte-string marker `0x5F` (major type 2, low 5 bits 31) the head decoder does
not signal indefinite length to the caller — it fails with a `DecodeError`. -/
theorem decodeDefHead_indef_bytes_fails :
    decodeDefHead ⟨[95], 0⟩ = .error (.decodeError
      "Unexpected header m=2 n0=31 (expected def instead of indef)") := by
  rfl

/-- Witness for C5 (amended theorem) at major type 2 (`0x5F`): the specific
indefinite-marker error, and the `isIndefBytes` probe answering `true`. -/
theorem decodeDefHead_indef_marker_witness :
    decodeDefHead ⟨[95], 0⟩ = .error (.decodeError
      "Unexpected header m=2 n0=31 (expected def instead of indef)") ∧
    isIndefBytes ⟨[95], 0⟩ = .ok (true, ⟨[95], 0⟩) :=
  ⟨(decodeDefHead_indef_marker 2 (by omega) [] []).2.1 (Or.inl rfl) 31 rfl,
    (decodeDefHead_indef_marker 2 (by omega) [] []).2.2.2.1⟩

end CborSpec
